import Mathlib

/-!
# Verification of the tic-tac-toe strategy engine

Shallow embedding of the game-state model (`src/types.rs`), the memoized
exhaustive solver (`src/alphabeta.rs`) and the MCTS engine (`src/mcts.rs`),
together with proofs of the specified properties.

Machine integers: the Rust code works on `u16` bitmasks.  All values
produced by the embedded operations stay below `2 ^ 16` (they are built by
`|||` from values below `2 ^ 16`), so they are modelled as plain `Nat` with
the `u16` constants written out (`!0b111111111 = 65024`, `!0 = 65535`).
-/

namespace TTT

/-- `Score` from `src/types.rs`. -/
inductive Score where
  | Player1Wins
  | Player2Wins
  | Draw
  | Undecided
deriving DecidableEq, Repr

/-- `GameState` from `src/types.rs`: one occupancy bitmask per player plus
the turn flag.  `u16` masks are modelled as `Nat` (all reachable values are
`< 2 ^ 16`). -/
structure GameState where
  player1 : Nat
  player2 : Nat
  is_player1 : Bool
deriving DecidableEq, Repr

/-- `Action` from `src/types.rs`. -/
inductive Action where
  | put (mask : Nat)

/-- `LegalMoves` from `src/types.rs`. -/
structure LegalMoves where
  occupied : Nat

/-- `GameState::default()`: `!0b111111111 : u16 = 65024` in both masks
("so that count_zeros only looks at board"), player 1 to move. -/
def GameState.default : GameState :=
  { player1 := 65024, player2 := 65024, is_player1 := true }

/-- `GameState::perform` from `src/types.rs`: OR the move mask into the
mover's mask and flip the turn flag. -/
def GameState.perform (st : GameState) (action : Action) : GameState :=
  match action with
  | .put mask =>
    match st.is_player1 with
    | true =>
      { player1 := st.player1 ||| mask, player2 := st.player2,
        is_player1 := false }
    | false =>
      { player1 := st.player1, player2 := st.player2 ||| mask,
        is_player1 := true }

/-- `GameState::legal_moves` from `src/types.rs`. -/
def GameState.legal_moves (st : GameState) : LegalMoves :=
  { occupied := st.player1 ||| st.player2 }

/-- The eight-line winning test applied to one player's mask in
`GameState::score` (the same 8-way disjunction appears verbatim for
`player1` and for `player2` in the source; it is factored out here). -/
def hasLine (g : Nat) : Bool :=
  g &&& 7 == 7 || g &&& 56 == 56 || g &&& 448 == 448 ||
  g &&& 292 == 292 || g &&& 146 == 146 || g &&& 73 == 73 ||
  g &&& 273 == 273 || g &&& 84 == 84

/-- `GameState::score` from `src/types.rs`: player-1 lines are checked
first, then player-2 lines, then the full-board draw test
`(player1 | player2) == !0` (`!0 : u16 = 65535`). -/
def GameState.score (st : GameState) : Score :=
  match hasLine st.player1 with
  | true => .Player1Wins
  | false =>
    match hasLine st.player2 with
    | true => .Player2Wins
    | false =>
      match st.player1 ||| st.player2 == 65535 with
      | true => .Draw
      | false => .Undecided

/-- The mover's winning score: `Player1Wins` when `is_player1`, else
`Player2Wins`. -/
def moverWin (st : GameState) : Score :=
  match st.is_player1 with
  | true => .Player1Wins
  | false => .Player2Wins

/-- Failure modes of the embedded solver: `panicked` models the
`panic!("should not happen")` branch, `fuelOut` is an artifact of the fuel
that makes the embedded recursion structural (the Rust recursion always
terminates because each recursive call has strictly fewer free cells). -/
inductive Fail where
  | panicked
  | fuelOut
deriving DecidableEq, Repr

/-- How one scan of the solver's cell loop ended: `early r` for the
mover-win short-circuit `return`, `done r` for falling out of the loop with
the final `(best_score, best_play_mask)`. -/
inductive LoopOut where
  | early (r : Score × Nat)
  | done (r : Score × Nat)
deriving DecidableEq, Repr

/-- Unbalanced binary search tree on `Nat` keys; models the `HashMap`s of
`src/alphabeta.rs` (solver cache) and `src/mcts.rs` (position-indexed node
table): a finite map populated by insertion, never evicted. -/
inductive BTree (β : Type) where
  | leaf
  | node (left : BTree β) (key : Nat) (value : β) (right : BTree β)
deriving Repr, DecidableEq

def BTree.find {β : Type} (t : BTree β) (k : Nat) : Option β :=
  match t with
  | leaf => none
  | node left key value right =>
    match Nat.blt k key with
    | true => left.find k
    | false =>
      match Nat.blt key k with
      | true => right.find k
      | false => some value

def BTree.insert {β : Type} (t : BTree β) (k : Nat) (v : β) : BTree β :=
  match t with
  | leaf => node leaf k v leaf
  | node left key value right =>
    match Nat.blt k key with
    | true => node (left.insert k v) key value right
    | false =>
      match Nat.blt key k with
      | true => node left key value (right.insert k v)
      | false => node left k v right

def BTree.isEmpty {β : Type} (t : BTree β) : Bool :=
  match t with
  | leaf => true
  | node .. => false

/-- Injective encoding of a `GameState` (with masks `< 2 ^ 16`) as the map
key; models keying the Rust `HashMap`s directly by the (structurally
hashed/compared) `GameState` value. -/
def encode (st : GameState) : Nat :=
  st.player1 + 65536 * st.player2 + 4294967296 * (cond st.is_player1 1 0)

/-- Solver cache: position ↦ solved `(outcome, move mask)`, as in
`StrategyAlphaBeta { cache : HashMap<GameState, (Score, Grid)> }`. -/
def Cache : Type := BTree (Score × Nat)

/-- The cell indices `0..=8` scanned by the solver's loop. -/
def cells : List Nat := [0, 1, 2, 3, 4, 5, 6, 7, 8]

/-- One step of the Rust `match (state.is_player1, score, best_score)` in
`StrategyAlphaBeta::play_with_score`, restated as nested single-scrutinee
matches realizing the same (ordered-arm) decision table:
`.error .panicked` is the `panic!("should not happen")` arm
`(_, Undecided, _)`; `.ok (.inl r)` is the mover-win early `return r`
(arms `(true, Player1Wins, _)` and `(false, Player2Wins, _)`);
`.ok (.inr (b, m))` continues the loop with updated or kept
`(best_score, best_play_mask)` (the remaining arms). -/
def pwsStep (isP1 : Bool) (score : Score) (best : Score) (bestMask : Nat)
    (mask : Nat) : Except Fail ((Score × Nat) ⊕ (Score × Nat)) :=
  match score with
  | .Player1Wins =>
    match isP1 with
    | true => .ok (.inl (.Player1Wins, mask))
    | false =>
      match best with
      | .Undecided => .ok (.inr (.Player1Wins, mask))
      | _ => .ok (.inr (best, bestMask))
  | .Player2Wins =>
    match isP1 with
    | false => .ok (.inl (.Player2Wins, mask))
    | true =>
      match best with
      | .Undecided => .ok (.inr (.Player2Wins, mask))
      | _ => .ok (.inr (best, bestMask))
  | .Draw =>
    match best with
    | .Undecided => .ok (.inr (.Draw, mask))
    | .Player2Wins =>
      match isP1 with
      | true => .ok (.inr (.Draw, mask))
      | false => .ok (.inr (best, bestMask))
    | .Player1Wins =>
      match isP1 with
      | false => .ok (.inr (.Draw, mask))
      | true => .ok (.inr (best, bestMask))
    | .Draw => .ok (.inr (best, bestMask))
  | .Undecided => .error .panicked

/-- The solver's `for current in 0..=8` loop from
`StrategyAlphaBeta::play_with_score`, generic in the child-evaluation
function `eval` (which performs `next_state.score()` plus the recursive
call) and in the threaded solver state `α` (the cache; `Unit` for the
cache-free reference version).  `occ` is the hoisted
`legal.occupied` computed once before the loop, as in the source. -/
def pwsLoop {α : Type} (eval : α → GameState → Except Fail (Score × α))
    (st : GameState) (occ : Nat) :
    List Nat → Score → Nat → α → Except Fail (LoopOut × α)
  | [], best, bestMask, a => .ok (.done (best, bestMask), a)
  | current :: rest, best, bestMask, a =>
    let mask := 1 <<< current
    match occ &&& mask == 0 with
    | true =>
      match eval a (st.perform (.put mask)) with
      | .error e => .error e
      | .ok (score, a') =>
        match pwsStep st.is_player1 score best bestMask mask with
        | .error e => .error e
        | .ok (.inl r) => .ok (.early r, a')
        | .ok (.inr (b, m)) => pwsLoop eval st occ rest b m a'
    | false =>
      pwsLoop eval st occ rest best bestMask a

/-- Child evaluation in `play_with_score`:
`let mut score = next_state.score(); if let Undecided = score { recurse }`,
threading the cache through the recursion. -/
def childEval (recur : Cache → GameState → Except Fail ((Score × Nat) × Cache))
    (c : Cache) (next : GameState) : Except Fail (Score × Cache) :=
  match next.score with
  | .Undecided =>
    match recur c next with
    | .ok (r, c') => .ok (r.1, c')
    | .error e => .error e
  | sc => .ok (sc, c)

/-- `StrategyAlphaBeta::play_with_score` from `src/alphabeta.rs`: check the
cache, otherwise scan all cells accumulating the best score for the mover;
on the mover-win arms the function returns without inserting into the
cache; on loop completion it inserts `(best_score, best_play_mask)` and
returns it.  `fuel` only makes the recursion structural. -/
def playWithScore : Nat → Cache → GameState →
    Except Fail ((Score × Nat) × Cache)
  | 0, _, _ => .error .fuelOut
  | fuel + 1, cache, st =>
    match BTree.find cache (encode st) with
    | some r => .ok (r, cache)
    | none =>
      match pwsLoop (childEval (fun c s => playWithScore fuel c s)) st
          st.legal_moves.occupied cells .Undecided 0 cache with
      | .error e => .error e
      | .ok (.early r, c') => .ok (r, c')
      | .ok (.done r, c') => .ok (r, BTree.insert c' (encode st) r)

/-- Cache-free reference evaluation of a child (used by `pwsPure`). -/
def pureEval (recur : GameState → Except Fail (Score × Nat))
    (_ : Unit) (next : GameState) : Except Fail (Score × Unit) :=
  match next.score with
  | .Undecided =>
    match recur next with
    | .ok r => .ok (r.1, ())
    | .error e => .error e
  | sc => .ok (sc, ())

/-- The cache-free version of `play_with_score`: same loop, same arms, no
memoization.  It is the reference function the cache is proved sound
against. -/
def pwsPure : Nat → GameState → Except Fail (Score × Nat)
  | 0, _ => .error .fuelOut
  | fuel + 1, st =>
    match pwsLoop (pureEval (fun s => pwsPure fuel s)) st
        st.legal_moves.occupied cells .Undecided 0 () with
    | .error e => .error e
    | .ok (.early r, _) => .ok r
    | .ok (.done r, _) => .ok r

/-- The exhaustive-search value of a position: any chain of recursive calls
shortens the free-cell count, which is at most 9, so fuel 10 is always
enough. -/
def mm (st : GameState) : Except Fail (Score × Nat) := pwsPure 10 st

/-- The evaluation the solver's cell scan assigns to the child at cell
`i`: the child's immediate `score()` when decided, otherwise the
exhaustive-search value of the child position (the outcome component of
the recursive call). -/
def childOutcome (st : GameState) (i : Nat) : Option Score :=
  match (st.perform (.put (1 <<< i))).score with
  | .Undecided =>
    match mm (st.perform (.put (1 <<< i))) with
    | .ok r => some r.1
    | .error _ => none
  | sc => some sc

/-- Outcome component of a solver result. -/
def scoreOf (r : Except Fail ((Score × Nat) × Cache)) : Option Score :=
  match r with
  | .ok (p, _) => some p.1
  | .error _ => none

/-- Result pair of a solver run. -/
def resultOf (r : Except Fail ((Score × Nat) × Cache)) :
    Option (Score × Nat) :=
  match r with
  | .ok (p, _) => some p
  | .error _ => none

/-! ## Reachable states and mask invariants -/

/-- States reachable from `GameState::default()` by `perform`ing moves on
cells drawn from `legal_moves` (a legal move puts a single bit `1 << i`,
`i < 9`, on an unoccupied cell, as all three strategies do). -/
inductive Reachable : GameState → Prop where
  | base : Reachable .default
  | step (st : GameState) (i : Nat) (h : Reachable st) (hi : i < 9)
      (hfree : st.legal_moves.occupied &&& (1 <<< i) = 0) :
      Reachable (st.perform (.put (1 <<< i)))

/-- Mask invariant maintained from `default`: the seven non-board bits
(9–15, i.e. `65024 = !0b111111111`) are set in both masks and both masks
are `u16` values. -/
def HighBits (st : GameState) : Prop :=
  st.player1 &&& 65024 = 65024 ∧ st.player2 &&& 65024 = 65024 ∧
    st.player1 < 65536 ∧ st.player2 < 65536

instance (st : GameState) : Decidable (HighBits st) := by
  unfold HighBits; infer_instance

/-- Number of free board cells of a position (the count of board indices
whose bit is clear in `legal_moves().occupied`); the measure that strictly
decreases along the solver's recursion. -/
def freeCount (st : GameState) : Nat :=
  (List.range 9).countP (fun i => !(st.legal_moves.occupied.testBit i))

/-- `u16::count_zeros` of a mask modelled on 16 bits. -/
def countZeros (g : Nat) : Nat :=
  (List.range 16).countP (fun i => !(g.testBit i))

/-- The `u16` range constraint on the two masks; every Rust `GameState`
satisfies it by typing. -/
def Bounded (st : GameState) : Prop :=
  st.player1 < 65536 ∧ st.player2 < 65536

instance (st : GameState) : Decidable (Bounded st) := by
  unfold Bounded; infer_instance

/-- A cache is sound when every entry it holds for (the key of) a bounded
state is the exhaustive-search value of that state. -/
def Sound (c : Cache) : Prop :=
  ∀ st r, Bounded st → BTree.find c (encode st) = some r → mm st = .ok r

/-- Score carried by a loop outcome. -/
def outScore : LoopOut → Score
  | .early r => r.1
  | .done r => r.1

/-- A two-move position with the mover's one-move win at cell 2:
player 1 holds cells 0,1, player 2 holds cells 3,4, player 1 to move. -/
def c2state : GameState := ⟨65027, 65048, true⟩

/-- A position whose lowest-index immediately-winning cell for the mover
is 1, while the free cell 0 also forces a win by recursion: player 1
holds cells 2,4,7 (threats at 1 and 6), player 2 holds cells 3,5,8,
player 1 to move; cells 0,1,6 are free. -/
def c3state : GameState := ⟨65172, 65320, true⟩

/-- A one-free-cell position whose single continuation is a draw:
player 1 holds 0,1,5,6, player 2 holds 2,3,4,7, player 1 to move at
cell 8. -/
def wDraw : GameState := ⟨65123, 65180, true⟩

/-- The cache produced by solving `wDraw` from the empty cache. -/
def wDrawCache : Cache :=
  BTree.insert (.leaf : Cache) (encode wDraw) (Score.Draw, 256)

/-! ## MCTS engine (`src/mcts.rs`)

The tree nodes are shared per position (`HashMap<GameState, Rc<RefCell<Node>>>`;
`moves[idx]` aliases the entry of the resulting position), so the state is
modelled as one finite map from position keys to node records, with
`moves` reduced to presence flags.  The UCB1 child selection computes with
`f32` (logarithm, square root, division) and a random shuffle; it is
abstracted by an oracle `sel` whose choice is clamped to the legal cells
exactly as the source's scan guarantees (any unoccupied cell can be the
arg-max, occupied cells never can, and index 0 is the fallback when no
cell is legal).  All theorems below hold for every oracle, covering every
choice the floating-point computation could make. -/

/-- MCTS tree node: `visited`/`wins` counters and the nine child-presence
flags of `moves`. -/
structure Node where
  visited : Nat
  wins : Nat
  moves : List Bool
deriving Repr, DecidableEq

/-- `Node::default()`: zero counters, `[NOT_EXPLORED; 9]`. -/
def Node.init : Node := ⟨0, 0, List.replicate 9 false⟩

/-- Decode a position key (inverse of `encode` on `u16`-bounded states). -/
def decodeK (k : Nat) : GameState :=
  ⟨k % 65536, k / 65536 % 65536, k / 4294967296 % 2 == 1⟩

/-- Key of the position reached from key `k` by putting cell `i`. -/
def childKey (k i : Nat) : Nat :=
  encode ((decodeK k).perform (.put (1 <<< i)))

/-- Number of free board cells read off a position key. -/
def keyFree (k : Nat) : Nat :=
  (List.range 9).countP
    (fun i => !(((k % 65536) ||| (k / 65536 % 65536)).testBit i))

/-- The UCB1 child selection of `search_one`: the scan over the shuffled
indices skips occupied cells, gives unvisited (or zero-parent) children
infinite priority and otherwise compares finite nonnegative `f32` scores,
so it returns *some* free cell whenever one exists and the initial
`(NEG_INFINITY, 0)` pair's index 0 otherwise; which free cell wins is
decided by floating-point values and the shuffle, abstracted by `sel`. -/
def pickIdx (sel : BTree Node → GameState → Nat) (t : BTree Node)
    (st : GameState) : Nat :=
  let occ := st.legal_moves.occupied
  let frees := (List.range 9).filter (fun i => occ &&& (1 <<< i) == 0)
  match frees with
  | [] => 0
  | f :: _ =>
    let s := sel t st
    match frees.contains s with
    | true => s
    | false => f

/-- The child-node creation block of `search_one`: if the move flag is
already set, the child's entry is fetched (`self.tree[&next_state]`
panics, modelled `none`, when absent); otherwise the child entry is
created if missing — or, when a transposed node already exists, the
source `assert!`s that it has been visited (`none` on failure) — and the
parent's move flag is set.  Keys are passed explicitly (`stK`/`nextK`
are the encodings of the parent and resulting positions). -/
def soChild (t : BTree Node) (node : Node) (stK nextK bestIdx : Nat) :
    Option (BTree Node) :=
  match node.moves.getD bestIdx false with
  | true =>
    match BTree.find t nextK with
    | none => none
    | some _ => some t
  | false =>
    match BTree.find t nextK with
    | none =>
      some ((t.insert nextK Node.init).insert stK
        { node with moves := node.moves.set bestIdx true })
    | some a =>
      match a.visited == 0 with
      | true => none
      | false =>
        some (t.insert stK
          { node with moves := node.moves.set bestIdx true })

/-- The `let result = match (current_player_is_1, next_state.score())`
block of `search_one`, with `recur` standing for the recursive call on an
`Undecided` position. -/
def soResult (recur : BTree Node → GameState → Option Nat × BTree Node)
    (t1 : BTree Node) (next : GameState) (curP1 : Bool) :
    Option Nat × BTree Node :=
  match curP1, next.score with
  | true, .Player1Wins => (some 1, t1)
  | false, .Player2Wins => (some 1, t1)
  | _, .Player1Wins => (some 0, t1)
  | _, .Player2Wins => (some 0, t1)
  | _, .Draw => (some 1, t1)
  | _, .Undecided => recur t1 next

/-- The final `c.visited += 1; c.wins += result` of `search_one`,
applied to the child's entry in the tree returned by the recursion (the
`Rc` handle aliases that entry). -/
def soBackprop (rt : Option Nat × BTree Node) (nextK : Nat) :
    Option Nat × BTree Node :=
  match rt with
  | (none, t2) => (none, t2)
  | (some r, t2) =>
    match BTree.find t2 nextK with
    | none => (none, t2)
    | some cnode =>
      (some r, t2.insert nextK
        { cnode with
            visited := cnode.visited + 1
            wins := cnode.wins + r })

/-- `StrategyMCTS::search_one`: fetch the node of `state` (indexing
panics, modelled `none`, when absent), select a child cell, create or
fetch the child node (`soChild`), classify the resulting position and
recurse while `Undecided` (`soResult`), then increment the child's
`visited` and add the result to its `wins` (`soBackprop`).  Returns the
simulation result (`1` = win for the tracked player or draw) and the
updated tree; `none` models a panic, with the updates applied before the
panic point kept in the returned tree. -/
def searchOne (sel : BTree Node → GameState → Nat) :
    Nat → BTree Node → GameState → Bool → Option Nat × BTree Node
  | 0, t, _, _ => (none, t)
  | fuel + 1, t, st, curP1 =>
    match BTree.find t (encode st) with
    | none => (none, t)
    | some node =>
      match soChild t node (encode st)
          (encode (st.perform (.put (1 <<< pickIdx sel t st))))
          (pickIdx sel t st) with
      | none => (none, t)
      | some t1 =>
        soBackprop
          (soResult (fun t' s' => searchOne sel fuel t' s' curP1) t1
            (st.perform (.put (1 <<< pickIdx sel t st))) curP1)
          (encode (st.perform (.put (1 <<< pickIdx sel t st))))

/-- The `for _ in 0..iterations` loop of `StrategyMCTS::play`: each
iteration runs `search_one` from the root position and then increments
the root node's `visited` and adds the result to its `wins`. -/
def playIters (sel : BTree Node → GameState → Nat) (fuel : Nat) :
    Nat → BTree Node → GameState → Option (BTree Node)
  | 0, t, _ => some t
  | n + 1, t, st =>
    match searchOne sel fuel t st st.is_player1 with
    | (none, _) => none
    | (some r, t') =>
      match BTree.find t' (encode st) with
      | none => none
      | some nd =>
        playIters sel fuel n
          (t'.insert (encode st)
            { nd with visited := nd.visited + 1, wins := nd.wins + r }) st

/-- The final move selection of `StrategyMCTS::play`: among the explored
children pick the one with the highest `wins/visited` ratio (first-found
wins ties).  The `f32` division and comparison of the source are modelled
by exact cross-multiplication against the running best ratio, which
starts at `-1.`; a zero-visited child (whose `f32` ratio would be the
never-greater `NaN`, as `wins <= visited` forces `0./0.`) is skipped. -/
def bestRateIdx (t : BTree Node) (st : GameState) (node : Node) : Nat :=
  ((List.range 9).foldl
    (fun (best : Int × Int × Nat) idx =>
      match node.moves.getD idx false with
      | false => best
      | true =>
        match BTree.find t (encode (st.perform (.put (1 <<< idx)))) with
        | none => best
        | some c =>
          match c.visited == 0 with
          | true => best
          | false =>
            match decide ((c.wins : Int) * best.2.1 >
                best.1 * (c.visited : Int)) with
            | true => ((c.wins : Int), ((c.visited : Int), idx))
            | false => best)
    ((-1 : Int), (1 : Int), (0 : Nat))).2.2

/-- Shared tail of `StrategyMCTS::play` after the root node has been
fetched or created: run the simulation loop unless the root has already
been visited 5477 times (the number of distinct reachable positions),
then emit the best-ratio child. -/
def mctsPlayGo (sel : BTree Node → GameState → Nat) (fuel : Nat)
    (t1 : BTree Node) (st : GameState) (node : Node) (iterations : Nat) :
    Option (Nat × BTree Node) :=
  match
    (match Nat.blt node.visited 5477 with
     | true => playIters sel fuel iterations t1 st
     | false => some t1) with
  | none => none
  | some t2 =>
    match BTree.find t2 (encode st) with
    | some n2 => some (1 <<< bestRateIdx t2 st n2, t2)
    | none => some (1 <<< bestRateIdx t2 st Node.init, t2)

/-- `StrategyMCTS::play`: 30000 simulation iterations on the very first
call (empty tree), 100 afterwards; the root node is created if missing;
the whole simulation phase is skipped once the root's `visited` count
reaches 5477; finally the best-ratio child is emitted as the move. -/
def mctsPlay (sel : BTree Node → GameState → Nat) (fuel : Nat)
    (t : BTree Node) (st : GameState) : Option (Nat × BTree Node) :=
  let iterations : Nat :=
    match t.isEmpty with
    | true => 30000
    | false => 100
  match BTree.find t (encode st) with
  | none =>
    mctsPlayGo sel fuel (t.insert (encode st) Node.init) st Node.init
      iterations
  | some n => mctsPlayGo sel fuel t st n iterations

/-- All counters well-formed: `wins <= visited` in every node. -/
def WFcounters (t : BTree Node) : Prop :=
  ∀ k n, BTree.find t k = some n → n.wins ≤ n.visited

/-- Per-node `visited` never decreases from `t` to `t'` (entries are
never removed). -/
def visMono (t t' : BTree Node) : Prop :=
  ∀ k n, BTree.find t k = some n →
    ∃ n', BTree.find t' k = some n' ∧ n.visited ≤ n'.visited

/-! ### Iteration-budget infrastructure (C9) -/

/-- No new zero-visited nodes: every zero-visited entry of `t'` was
already a zero-visited entry of `t`. -/
def ZeroSub (t' t : BTree Node) : Prop :=
  ∀ k n', BTree.find t' k = some n' → n'.visited = 0 →
    ∃ n, BTree.find t k = some n ∧ n.visited = 0

/-- Explored-move flags are backed: whenever a node's move flag `i` is
set, the child position's entry exists in the tree (so the
`self.tree[&next_state]` indexing of `search_one` cannot panic). -/
def Finv (t : BTree Node) : Prop :=
  ∀ k n, BTree.find t k = some n → ∀ i, i < 9 →
    n.moves.getD i false = true →
    (BTree.find t (childKey k i)).isSome = true

/-- A selection oracle that always proposes cell 0. -/
def selZero : BTree Node → GameState → Nat := fun _ _ => 0

/-- A root node already visited 5477 times. -/
def capNode : Node := ⟨5477, 0, List.replicate 9 false⟩

/-- A tree holding only the capped root. -/
def tCap : BTree Node := BTree.insert .leaf (encode GameState.default) capNode

/-- The tree left by one fuel-starved `searchOne` step from `tCap`:
the child of cell 0 created and the root's move flag 0 set. -/
def t1cap : BTree Node :=
  (tCap.insert (encode (GameState.default.perform (.put 1)))
    Node.init).insert
    (encode GameState.default) ⟨5477, 0, (List.replicate 9 false).set 0 true⟩

/-- A fresh tree holding only the unvisited root entry for the empty
board, as created by the first `play` call. -/
def tInit : BTree Node :=
  BTree.insert .leaf (encode GameState.default) Node.init

/-- A position other than the empty board with player 1 to move: here
the empty board with player 2 to move, whose key differs from
`GameState.default`'s in the turn component. -/
def stOther : GameState := ⟨65024, 65024, false⟩

/-- A nonempty tree with no entry for the empty board: it holds one
unvisited entry, keyed by `stOther`.  It models the tree state of a
later `play` call made on a position not yet entered (the
`tree.entry(..).or_insert` miss on a nonempty tree). -/
def tOther : BTree Node := BTree.insert .leaf (encode stOther) Node.init

/-! ### Binary-search-tree lemmas -/

theorem blt_true_of_lt {a b : Nat} (h : a < b) : Nat.blt a b = true := by
  rwa [Nat.blt_eq]

theorem blt_false_of_ge {a b : Nat} (h : b ≤ a) : Nat.blt a b = false := by
  rcases hb : Nat.blt a b with _ | _
  · rfl
  · rw [Nat.blt_eq] at hb; omega

theorem BTree.find_leaf {β : Type} (k : Nat) :
    (BTree.leaf : BTree β).find k = none := rfl

theorem BTree.find_node {β : Type} (l : BTree β) (key : Nat) (val : β)
    (r : BTree β) (k : Nat) :
    (BTree.node l key val r).find k =
      match Nat.blt k key with
      | true => l.find k
      | false =>
        match Nat.blt key k with
        | true => r.find k
        | false => some val := rfl

theorem BTree.insert_leaf {β : Type} (k : Nat) (v : β) :
    (BTree.leaf : BTree β).insert k v = .node .leaf k v .leaf := rfl

theorem BTree.insert_node {β : Type} (l : BTree β) (key : Nat) (val : β)
    (r : BTree β) (k : Nat) (v : β) :
    (BTree.node l key val r).insert k v =
      match Nat.blt k key with
      | true => BTree.node (l.insert k v) key val r
      | false =>
        match Nat.blt key k with
        | true => BTree.node l key val (r.insert k v)
        | false => BTree.node l k v r := rfl

theorem BTree.find_insert_self {β : Type} (t : BTree β) (k : Nat) (v : β) :
    (t.insert k v).find k = some v := by
  induction t with
  | leaf =>
    rw [BTree.insert_leaf, BTree.find_node, blt_false_of_ge (le_refl k)]
  | node l key val r ihl ihr =>
    rw [BTree.insert_node]
    rcases Nat.lt_trichotomy k key with h | h | h
    · rw [blt_true_of_lt h, BTree.find_node, blt_true_of_lt h, ihl]
    · subst h
      rw [blt_false_of_ge (le_refl k), BTree.find_node,
        blt_false_of_ge (le_refl k)]
    · rw [blt_false_of_ge (le_of_lt h), blt_true_of_lt h, BTree.find_node,
        blt_false_of_ge (le_of_lt h), blt_true_of_lt h, ihr]

theorem BTree.find_insert_ne {β : Type} (t : BTree β) (k k' : Nat) (v : β)
    (h : k' ≠ k) : (t.insert k v).find k' = t.find k' := by
  induction t with
  | leaf =>
    rw [BTree.insert_leaf, BTree.find_node, BTree.find_leaf]
    rcases Nat.lt_trichotomy k' k with h' | h' | h'
    · rw [blt_true_of_lt h']
    · exact absurd h' h
    · rw [blt_false_of_ge (le_of_lt h'), blt_true_of_lt h']
  | node l key val r ihl ihr =>
    rw [BTree.insert_node]
    rcases Nat.lt_trichotomy k key with hk | hk | hk
    · rw [blt_true_of_lt hk, BTree.find_node, BTree.find_node]
      rcases hb : Nat.blt k' key with _ | _
      · rfl
      · rw [ihl]
    · subst hk
      rw [blt_false_of_ge (le_refl k), BTree.find_node, BTree.find_node]
      rcases Nat.lt_trichotomy k' k with h' | h' | h'
      · rw [blt_true_of_lt h']
      · exact absurd h' h
      · rw [blt_false_of_ge (le_of_lt h'), blt_true_of_lt h']
    · rw [blt_false_of_ge (le_of_lt hk), blt_true_of_lt hk, BTree.find_node,
        BTree.find_node]
      rcases hb : Nat.blt k' key with _ | _
      · rcases hb' : Nat.blt key k' with _ | _
        · rfl
        · rw [ihr]
      · rfl

/-! ### Bit lemmas -/

theorem land_shiftLeft_eq_zero_iff (x i : Nat) :
    x &&& (1 <<< i) = 0 ↔ x.testBit i = false := by
  rw [Nat.shiftLeft_eq, one_mul, Nat.and_two_pow]
  rcases h : x.testBit i with _ | _
  · simp
  · have h2 := Nat.two_pow_pos i
    simp only [Bool.toNat_true, one_mul]
    constructor
    · intro h0; omega
    · intro h0; cases h0

theorem highBits_default : HighBits GameState.default := by decide

theorem perform_of_isP1 (st : GameState) (m : Nat) (h : st.is_player1 = true) :
    st.perform (.put m) =
      { player1 := st.player1 ||| m, player2 := st.player2,
        is_player1 := false } := by
  unfold GameState.perform
  rw [h]

theorem perform_of_isP2 (st : GameState) (m : Nat)
    (h : st.is_player1 = false) :
    st.perform (.put m) =
      { player1 := st.player1, player2 := st.player2 ||| m,
        is_player1 := true } := by
  unfold GameState.perform
  rw [h]

theorem lor_preserves_high (p i : Nat) (hp : p &&& 65024 = 65024) :
    (p ||| 1 <<< i) &&& 65024 = 65024 := by
  apply Nat.eq_of_testBit_eq
  intro j
  have hpj := congrArg (fun n => n.testBit j) hp
  simp only [Nat.testBit_land, Nat.testBit_lor] at hpj ⊢
  rcases hj : (65024 : Nat).testBit j with _ | _
  · simp
  · simp only [hj, Bool.and_true] at hpj ⊢
    simp [hpj]

theorem lor_lt_u16 (p i : Nat) (hp : p < 65536) (hi : i < 9) :
    p ||| 1 <<< i < 65536 := by
  have h16 : (65536 : Nat) = 2 ^ 16 := by norm_num
  have hle : i ≤ 8 := by omega
  have hmask : (1 <<< i) < 2 ^ 16 := by
    rw [Nat.shiftLeft_eq, one_mul]
    exact lt_of_le_of_lt (Nat.pow_le_pow_right (by norm_num) hle)
      (by norm_num)
  rw [h16] at hp ⊢
  exact Nat.or_lt_two_pow hp hmask

theorem highBits_perform (st : GameState) (i : Nat) (hi : i < 9)
    (h : HighBits st) : HighBits (st.perform (.put (1 <<< i))) := by
  obtain ⟨h1, h2, b1, b2⟩ := h
  rcases hp : st.is_player1 with _ | _
  · rw [perform_of_isP2 st _ hp]
    exact ⟨h1, lor_preserves_high _ _ h2, b1, lor_lt_u16 _ _ b2 hi⟩
  · rw [perform_of_isP1 st _ hp]
    exact ⟨lor_preserves_high _ _ h1, h2, lor_lt_u16 _ _ b1 hi, b2⟩

theorem reachable_highBits {st : GameState} (h : Reachable st) :
    HighBits st := by
  induction h with
  | base => exact highBits_default
  | step st i _ hi _ ih => exact highBits_perform st i hi ih

theorem testBit_one_shiftLeft (i j : Nat) :
    (1 <<< i).testBit j = decide (i = j) := by
  rw [Nat.shiftLeft_eq, one_mul, Nat.testBit_two_pow]

theorem testBit_65024_of_high {j : Nat} (h9 : 9 ≤ j) (h16 : j < 16) :
    (65024 : Nat).testBit j = true := by
  interval_cases j <;> decide

theorem testBit_65535_of_lt {j : Nat} (h16 : j < 16) :
    (65535 : Nat).testBit j = true := by
  interval_cases j <;> decide

theorem high_testBit_true {p j : Nat} (hp : p &&& 65024 = 65024)
    (h9 : 9 ≤ j) (h16 : j < 16) : p.testBit j = true := by
  have := congrArg (fun n => n.testBit j) hp
  simp only [Nat.testBit_land, testBit_65024_of_high h9 h16,
    Bool.and_true] at this
  exact this

theorem testBit_high_false {p j : Nat} (hp : p < 65536) (h16 : 16 ≤ j) :
    p.testBit j = false := by
  apply Nat.testBit_lt_two_pow
  calc p < 65536 := hp
  _ = 2 ^ 16 := by norm_num
  _ ≤ 2 ^ j := Nat.pow_le_pow_right (by norm_num) h16

theorem freeCount_le_nine (st : GameState) : freeCount st ≤ 9 := by
  have := @List.countP_le_length Nat
    (fun i => !(st.legal_moves.occupied.testBit i)) (List.range 9)
  simpa [freeCount] using this

theorem occupied_perform (st : GameState) (m : Nat) :
    (st.perform (.put m)).legal_moves.occupied =
      st.legal_moves.occupied ||| m := by
  rcases hp : st.is_player1 with _ | _
  · rw [perform_of_isP2 st m hp]
    unfold GameState.legal_moves
    simp only []
    rw [← Nat.lor_assoc]
  · rw [perform_of_isP1 st m hp]
    unfold GameState.legal_moves
    simp only []
    rw [Nat.lor_assoc, Nat.lor_comm m st.player2, ← Nat.lor_assoc]

theorem countP_remove_one {p p' : Nat → Bool} (i : Nat) :
    ∀ l : List Nat, l.Nodup → i ∈ l → p i = true →
      (∀ j, p' j = (p j && !(j == i))) →
      l.countP p' + 1 = l.countP p := by
  intro l
  induction l with
  | nil => intro _ h; cases h
  | cons a t ih =>
    intro hnd hmem hpi hp'
    by_cases hai : a = i
    · subst hai
      have hpa' : p' a = false := by
        rw [hp' a]
        simp [hpi]
      have hrest : t.countP p' = t.countP p := by
        apply List.countP_congr
        intro j hj
        have hne : j ≠ a := by
          intro hj'
          subst hj'
          exact (List.nodup_cons.mp hnd).1 hj
        rw [hp' j]
        simp [hne]
      rw [List.countP_cons, List.countP_cons, hpa', hpi, hrest]
      simp
    · have hmem' : i ∈ t := by
        rcases List.mem_cons.mp hmem with h' | h'
        · exact absurd h'.symm hai
        · exact h'
      have hpa : p' a = p a := by
        rw [hp' a]
        simp [hai]
      have := ih (List.nodup_cons.mp hnd).2 hmem' hpi hp'
      rw [List.countP_cons, List.countP_cons, hpa]
      omega

theorem freeCount_perform_lt (st : GameState) (i : Nat) (hi : i < 9)
    (hfree : st.legal_moves.occupied &&& (1 <<< i) = 0) :
    freeCount (st.perform (.put (1 <<< i))) < freeCount st := by
  have hbit : st.legal_moves.occupied.testBit i = false :=
    (land_shiftLeft_eq_zero_iff _ i).mp hfree
  have hkey : freeCount (st.perform (.put (1 <<< i))) + 1 = freeCount st := by
    unfold freeCount
    apply countP_remove_one i (List.range 9) (List.nodup_range _)
      (List.mem_range.mpr hi) (by simp [hbit])
    intro j
    rw [occupied_perform]
    simp only [Nat.testBit_lor, testBit_one_shiftLeft]
    rcases hj : decide (i = j) with _ | _
    · have : j ≠ i := fun h => by simp [h] at hj
      simp [this]
    · have : i = j := of_decide_eq_true hj
      subst this
      simp
  omega

/-- Splitting `score = Undecided` into its three failed tests. -/
theorem score_undecided_parts (st : GameState) (hs : st.score = .Undecided) :
    hasLine st.player1 = false ∧ hasLine st.player2 = false ∧
      (st.player1 ||| st.player2 == 65535) = false := by
  unfold GameState.score at hs
  rcases e1 : hasLine st.player1 with _ | _ <;> rw [e1] at hs
  · rcases e2 : hasLine st.player2 with _ | _ <;> rw [e2] at hs
    · rcases e3 : (st.player1 ||| st.player2 == 65535) with _ | _ <;>
        rw [e3] at hs
      · exact ⟨rfl, rfl, rfl⟩
      · simp at hs
    · simp at hs
  · simp at hs

/-- A position scored `Undecided` with the high-bits invariant has a free
board cell (the draw test failed, and only board bits can be clear). -/
theorem score_undecided_free (st : GameState) (hb : HighBits st)
    (hs : st.score = .Undecided) :
    ∃ i, i < 9 ∧ st.legal_moves.occupied &&& (1 <<< i) = 0 := by
  obtain ⟨h1, h2, b1, b2⟩ := hb
  have hocc : st.legal_moves.occupied = st.player1 ||| st.player2 := rfl
  have hne := (score_undecided_parts st hs).2.2
  by_contra hno
  push_neg at hno
  have hocclt : st.player1 ||| st.player2 < 65536 := by
    have h16 : (65536 : Nat) = 2 ^ 16 := by norm_num
    rw [h16] at b1 b2 ⊢
    exact Nat.or_lt_two_pow b1 b2
  have hq : st.player1 ||| st.player2 = 65535 := by
    apply Nat.eq_of_testBit_eq
    intro j
    rcases Nat.lt_or_ge j 9 with hj | hj
    · have := hno j hj
      have hbit : st.legal_moves.occupied.testBit j = true := by
        rcases e : st.legal_moves.occupied.testBit j with _ | _
        · exact absurd ((land_shiftLeft_eq_zero_iff _ _).mpr e) this
        · rfl
      rw [hocc] at hbit
      rw [hbit, testBit_65535_of_lt (by omega)]
    · rcases Nat.lt_or_ge j 16 with hj16 | hj16
      · rw [testBit_65535_of_lt hj16]
        simp only [Nat.testBit_lor]
        rw [high_testBit_true h1 hj hj16]
        rfl
      · rw [testBit_high_false hocclt hj16]
        have h65 : (65535 : Nat) = 2 ^ 16 - 1 := by norm_num
        rw [h65, Nat.testBit_two_pow_sub_one]
        simp
        omega
  rw [hq] at hne
  simp at hne

theorem union_eq_65535 (st : GameState) (hb : HighBits st)
    (hall : ∀ i, i < 9 → (st.player1 ||| st.player2).testBit i = true) :
    st.player1 ||| st.player2 = 65535 := by
  obtain ⟨h1, h2, b1, b2⟩ := hb
  have hocclt : st.player1 ||| st.player2 < 65536 := by
    have h16 : (65536 : Nat) = 2 ^ 16 := by norm_num
    rw [h16] at b1 b2 ⊢
    exact Nat.or_lt_two_pow b1 b2
  apply Nat.eq_of_testBit_eq
  intro j
  rcases Nat.lt_or_ge j 9 with hj | hj
  · rw [hall j hj, testBit_65535_of_lt (by omega)]
  · rcases Nat.lt_or_ge j 16 with hj16 | hj16
    · rw [testBit_65535_of_lt hj16]
      simp only [Nat.testBit_lor]
      rw [high_testBit_true h1 hj hj16]
      rfl
    · rw [testBit_high_false hocclt hj16]
      have h65 : (65535 : Nat) = 2 ^ 16 - 1 := by norm_num
      rw [h65, Nat.testBit_two_pow_sub_one]
      simp
      omega

/-- C5 (amended, proved part): on every reachable state no **board** cell
is occupied by both players: the two masks restricted to the nine board
bits are disjoint. -/
theorem claim_C5_board_disjoint (st : GameState) (h : Reachable st) :
    st.player1 &&& st.player2 &&& 511 = 0 := by
  induction h with
  | base => decide
  | step st i hR hi hfree ih =>
    have hfbit : (st.player1 ||| st.player2).testBit i = false :=
      (land_shiftLeft_eq_zero_iff _ _).mp hfree
    have hbits : st.player1.testBit i = false ∧
        st.player2.testBit i = false := by
      simpa [Nat.testBit_lor] using hfbit
    rcases hp : st.is_player1 with _ | _
    · rw [perform_of_isP2 st _ hp]
      apply Nat.eq_of_testBit_eq
      intro j
      have ihj := congrArg (fun n => n.testBit j) ih
      simp only [Nat.testBit_land, Nat.zero_testBit] at ihj ⊢
      simp only [Nat.testBit_lor, testBit_one_shiftLeft]
      by_cases hij : i = j
      · subst hij
        simp [hbits.1]
      · simp only [hij, decide_False, Bool.or_false]
        exact ihj
    · rw [perform_of_isP1 st _ hp]
      apply Nat.eq_of_testBit_eq
      intro j
      have ihj := congrArg (fun n => n.testBit j) ih
      simp only [Nat.testBit_land, Nat.zero_testBit] at ihj ⊢
      simp only [Nat.testBit_lor, testBit_one_shiftLeft]
      by_cases hij : i = j
      · subst hij
        simp [hbits.2]
      · simp only [hij, decide_False, Bool.or_false]
        exact ihj

/-- C5, counterexample to the claim as stated: already on the initial
state the two masks share bits (the seven non-board bits 9–15 are set in
both), so `player1 AND player2` has common set bits. -/
theorem claim_C5_counterexample :
    Reachable GameState.default ∧
      ¬(GameState.default.player1 &&& GameState.default.player2 = 0) :=
  ⟨Reachable.base, by decide⟩

/-- C5 witness: the amended statement applied at the initial state. -/
theorem claim_C5_witness :
    GameState.default.player1 &&& GameState.default.player2 &&& 511 = 0 :=
  claim_C5_board_disjoint GameState.default Reachable.base

/-- C8: when both players' masks contain a completed line, `score`
returns `Player1Wins` (the player-1 check precedes the player-2 check);
`score` is a total match chain, so no crash is possible. -/
theorem claim_C8_tiebreak (st : GameState) (h1 : hasLine st.player1 = true)
    (h2 : hasLine st.player2 = true) : st.score = .Player1Wins := by
  unfold GameState.score
  rw [h1]

/-- C8 witness: a state whose player-1 mask holds the top row and whose
player-2 mask holds the bottom row. -/
theorem claim_C8_witness :
    hasLine (⟨65031, 65472, true⟩ : GameState).player1 = true ∧
      hasLine (⟨65031, 65472, true⟩ : GameState).player2 = true ∧
      (⟨65031, 65472, true⟩ : GameState).score = .Player1Wins :=
  ⟨by decide, by decide, claim_C8_tiebreak _ (by decide) (by decide)⟩

/-- C10: on every reachable state the seven non-board bits of both masks
are set; hence the draw test `(player1 | player2) == !0` holds exactly
when all nine board cells are occupied, and `count_zeros` of
`legal_moves().occupied` equals the number of free board cells. -/
theorem claim_C10_high_bits (st : GameState) (h : Reachable st) :
    (∀ j, 9 ≤ j → j < 16 →
      st.player1.testBit j = true ∧ st.player2.testBit j = true) ∧
    ((st.player1 ||| st.player2 = 65535) ↔
      ∀ i, i < 9 → st.legal_moves.occupied.testBit i = true) ∧
    countZeros st.legal_moves.occupied = freeCount st := by
  have hb := reachable_highBits h
  obtain ⟨h1, h2, b1, b2⟩ := hb
  have hocc : st.legal_moves.occupied = st.player1 ||| st.player2 := rfl
  have hhigh : ∀ j, 9 ≤ j → j < 16 →
      st.legal_moves.occupied.testBit j = true := by
    intro j hj9 hj16
    rw [hocc]
    simp only [Nat.testBit_lor]
    rw [high_testBit_true h1 hj9 hj16]
    rfl
  refine ⟨?_, ⟨?_, ?_⟩, ?_⟩
  · intro j hj9 hj16
    exact ⟨high_testBit_true h1 hj9 hj16, high_testBit_true h2 hj9 hj16⟩
  · intro heq i hi
    rw [hocc, heq]
    exact testBit_65535_of_lt (by omega)
  · intro hall
    exact union_eq_65535 st ⟨h1, h2, b1, b2⟩ (fun i hi => hall i hi)
  · unfold countZeros freeCount
    have hsplit : List.range 16 =
        List.range 9 ++ [9, 10, 11, 12, 13, 14, 15] := by decide
    rw [hsplit, List.countP_append]
    have hzero : List.countP
        (fun i => !(st.legal_moves.occupied.testBit i))
        [9, 10, 11, 12, 13, 14, 15] = 0 := by
      apply List.countP_eq_zero.mpr
      intro a ha
      simp only [List.mem_cons, List.not_mem_nil, or_false] at ha
      have hbit : st.legal_moves.occupied.testBit a = true := by
        rcases ha with rfl | rfl | rfl | rfl | rfl | rfl | rfl <;>
          exact hhigh _ (by omega) (by omega)
      simp [hbit]
    rw [hzero]
    omega

/-! ## Solver metatheory -/

theorem bounded_of_highBits {st : GameState} (h : HighBits st) :
    Bounded st := ⟨h.2.2.1, h.2.2.2⟩

theorem bounded_perform (st : GameState) (i : Nat) (hi : i < 9)
    (h : Bounded st) : Bounded (st.perform (.put (1 <<< i))) := by
  obtain ⟨b1, b2⟩ := h
  rcases hp : st.is_player1 with _ | _
  · rw [perform_of_isP2 st _ hp]
    exact ⟨b1, lor_lt_u16 _ _ b2 hi⟩
  · rw [perform_of_isP1 st _ hp]
    exact ⟨lor_lt_u16 _ _ b1 hi, b2⟩

theorem encode_inj {st st' : GameState} (hb : Bounded st) (hb' : Bounded st')
    (h : encode st = encode st') : st = st' := by
  obtain ⟨b1, b2⟩ := hb
  obtain ⟨b1', b2'⟩ := hb'
  unfold encode at h
  rcases st with ⟨p1, p2, t⟩
  rcases st' with ⟨p1', p2', t'⟩
  simp only at h b1 b2 b1' b2' ⊢
  cases t <;> cases t' <;>
    simp only [cond_true, cond_false, GameState.mk.injEq, and_true,
      and_false] at h ⊢ <;>
    omega

theorem sound_find_none (k : Nat) :
    BTree.find (.leaf : BTree (Score × Nat)) k = none := rfl

theorem sound_leaf : Sound .leaf := by
  intro st r _ h
  rw [sound_find_none] at h
  cases h

theorem sound_insert {c : Cache} (hc : Sound c) {st : GameState}
    {r : Score × Nat} (hb : Bounded st) (hm : mm st = .ok r) :
    Sound (BTree.insert c (encode st) r) := by
  intro st₂ r₂ hb₂ hfind
  by_cases hk : encode st₂ = encode st
  · have : st₂ = st := encode_inj hb₂ hb hk
    subst this
    rw [hk, BTree.find_insert_self] at hfind
    cases hfind
    exact hm
  · rw [BTree.find_insert_ne _ _ _ _ hk] at hfind
    exact hc st₂ r₂ hb₂ hfind

theorem moverWin_eq (st : GameState) :
    moverWin st = cond st.is_player1 .Player1Wins .Player2Wins := by
  rcases h : st.is_player1 with _ | _ <;> simp [moverWin, h]

theorem moverWin_ne_undecided (st : GameState) :
    moverWin st ≠ .Undecided := by
  rw [moverWin_eq]
  rcases st.is_player1 with _ | _ <;> simp

/-! ### `pwsStep` case lemmas -/

theorem pwsStep_inl {isP1 : Bool} {sc best : Score} {bm mask : Nat}
    {r : Score × Nat}
    (h : pwsStep isP1 sc best bm mask = .ok (.inl r)) :
    r = (cond isP1 .Player1Wins .Player2Wins, mask) ∧ sc = r.1 := by
  cases isP1 <;> cases sc <;> cases best <;> simp [pwsStep] at h <;>
    rw [← h] <;> simp

theorem pwsStep_ok_of_ne {isP1 : Bool} {sc best : Score} {bm mask : Nat}
    (hsc : sc ≠ .Undecided) :
    ∃ x, pwsStep isP1 sc best bm mask = .ok x := by
  cases isP1 <;> cases sc <;> cases best <;>
    simp_all [pwsStep]

theorem pwsStep_inr_ne {isP1 : Bool} {sc best : Score} {bm mask : Nat}
    {b : Score} {m : Nat} (hsc : sc ≠ .Undecided)
    (h : pwsStep isP1 sc best bm mask = .ok (.inr (b, m))) :
    b ≠ .Undecided := by
  cases isP1 <;> cases sc <;> cases best <;> simp [pwsStep] at h <;>
    rw [← h.1] <;> simp

theorem pwsStep_moverWin (isP1 : Bool) (best : Score) (bm mask : Nat) :
    pwsStep isP1 (cond isP1 .Player1Wins .Player2Wins) best bm mask =
      .ok (.inl (cond isP1 .Player1Wins .Player2Wins, mask)) := by
  cases isP1 <;> rfl

/-! ### Loop unfolding and early-return lemmas -/

theorem pwsLoop_nil {α : Type} (eval : α → GameState → Except Fail (Score × α))
    (st : GameState) (occ : Nat) (best : Score) (bm : Nat) (a : α) :
    pwsLoop eval st occ [] best bm a = .ok (.done (best, bm), a) := rfl

theorem pwsLoop_cons {α : Type} (eval : α → GameState → Except Fail (Score × α))
    (st : GameState) (occ cur : Nat) (rest : List Nat) (best : Score)
    (bm : Nat) (a : α) :
    pwsLoop eval st occ (cur :: rest) best bm a =
      match occ &&& (1 <<< cur) == 0 with
      | true =>
        match eval a (st.perform (.put (1 <<< cur))) with
        | .error e => .error e
        | .ok (score, a') =>
          match pwsStep st.is_player1 score best bm (1 <<< cur) with
          | .error e => .error e
          | .ok (.inl r) => .ok (.early r, a')
          | .ok (.inr (b, m)) => pwsLoop eval st occ rest b m a'
      | false => pwsLoop eval st occ rest best bm a := rfl

theorem pwsLoop_early_moverWin {α : Type}
    (eval : α → GameState → Except Fail (Score × α)) (st : GameState)
    (occ : Nat) :
    ∀ (cells : List Nat) (best : Score) (bm : Nat) (a : α)
      (r : Score × Nat) (a' : α),
      pwsLoop eval st occ cells best bm a = .ok (.early r, a') →
      r.1 = moverWin st := by
  intro cells
  induction cells with
  | nil =>
    intro best bm a r a' h
    rw [pwsLoop_nil] at h
    cases h
  | cons cur rest ih =>
    intro best bm a r a' h
    rw [pwsLoop_cons] at h
    rcases hguard : occ &&& (1 <<< cur) == 0 with _ | _
    · simp only [hguard] at h
      exact ih best bm a r a' h
    · rcases heval : eval a (st.perform (.put (1 <<< cur))) with e | v
      · simp only [hguard, heval] at h
        exact Except.noConfusion h
      · obtain ⟨sc, a₂⟩ := v
        rcases hstep : pwsStep st.is_player1 sc best bm (1 <<< cur)
            with e | x
        · simp only [hguard, heval, hstep] at h
          exact Except.noConfusion h
        · rcases x with r₀ | ⟨b, m⟩
          · simp only [hguard, heval, hstep, Except.ok.injEq,
              Prod.mk.injEq, LoopOut.early.injEq] at h
            have hr := (pwsStep_inl hstep).1
            rw [← h.1, hr, moverWin_eq]
          · simp only [hguard, heval, hstep] at h
            exact ih b m a₂ r a' h

theorem cells_lt : ∀ cur ∈ cells, cur < 9 := by decide

theorem mem_cells {i : Nat} (h : i < 9) : i ∈ cells := by
  interval_cases i <;> decide

theorem playWithScore_zero (c : Cache) (st : GameState) :
    playWithScore 0 c st = .error .fuelOut := rfl

theorem playWithScore_succ (fuel : Nat) (c : Cache) (st : GameState) :
    playWithScore (fuel + 1) c st =
      match BTree.find c (encode st) with
      | some r => .ok (r, c)
      | none =>
        match pwsLoop (childEval (fun c' s => playWithScore fuel c' s)) st
            st.legal_moves.occupied cells .Undecided 0 c with
        | .error e => .error e
        | .ok (.early r, c') => .ok (r, c')
        | .ok (.done r, c') => .ok (r, BTree.insert c' (encode st) r) := rfl

theorem pwsPure_zero (st : GameState) : pwsPure 0 st = .error .fuelOut := rfl

theorem pwsPure_succ (fuel : Nat) (st : GameState) :
    pwsPure (fuel + 1) st =
      match pwsLoop (pureEval (fun s => pwsPure fuel s)) st
          st.legal_moves.occupied cells .Undecided 0 () with
      | .error e => .error e
      | .ok (.early r, _) => .ok r
      | .ok (.done r, _) => .ok r := rfl

theorem childEval_of_scored (recur : Cache → GameState →
      Except Fail ((Score × Nat) × Cache)) (c : Cache) (next : GameState)
    {sc : Score} (hs : next.score = sc) (hne : sc ≠ .Undecided) :
    childEval recur c next = .ok (sc, c) := by
  unfold childEval
  rw [hs]
  cases sc
  · rfl
  · rfl
  · rfl
  · exact absurd rfl hne

theorem childEval_of_undecided (recur : Cache → GameState →
      Except Fail ((Score × Nat) × Cache)) (c : Cache) (next : GameState)
    (hs : next.score = .Undecided) :
    childEval recur c next =
      match recur c next with
      | .ok (r, c') => .ok (r.1, c')
      | .error e => .error e := by
  unfold childEval
  rw [hs]

theorem pureEval_of_scored (recur : GameState → Except Fail (Score × Nat))
    (u : Unit) (next : GameState) {sc : Score} (hs : next.score = sc)
    (hne : sc ≠ .Undecided) : pureEval recur u next = .ok (sc, ()) := by
  unfold pureEval
  rw [hs]
  cases sc
  · rfl
  · rfl
  · rfl
  · exact absurd rfl hne

theorem pureEval_of_undecided (recur : GameState → Except Fail (Score × Nat))
    (u : Unit) (next : GameState) (hs : next.score = .Undecided) :
    pureEval recur u next =
      match recur next with
      | .ok r => .ok (r.1, ())
      | .error e => .error e := by
  unfold pureEval
  rw [hs]

/-- Simulation between two runs of the solver loop whose child evaluators
agree (up to a relation `R` on the threaded solver states). -/
theorem pwsLoop_sim {α β : Type}
    (eval1 : α → GameState → Except Fail (Score × α))
    (eval2 : β → GameState → Except Fail (Score × β))
    (st : GameState) (occ : Nat) (R : α → β → Prop)
    (H : ∀ a b cur, cur < 9 → (occ &&& (1 <<< cur) == 0) = true → R a b →
      ∀ sc a₂, eval1 a (st.perform (.put (1 <<< cur))) = .ok (sc, a₂) →
      ∃ b₂, eval2 b (st.perform (.put (1 <<< cur))) = .ok (sc, b₂) ∧
        R a₂ b₂) :
    ∀ (cs : List Nat), (∀ cur ∈ cs, cur < 9) →
      ∀ best bm a b out a₂, R a b →
      pwsLoop eval1 st occ cs best bm a = .ok (out, a₂) →
      ∃ b₂, pwsLoop eval2 st occ cs best bm b = .ok (out, b₂) ∧ R a₂ b₂ := by
  intro cs
  induction cs with
  | nil =>
    intro _ best bm a b out a₂ hR h
    rw [pwsLoop_nil] at h
    simp only [Except.ok.injEq, Prod.mk.injEq] at h
    refine ⟨b, ?_, ?_⟩
    · rw [pwsLoop_nil, h.1]
    · rw [← h.2]; exact hR
  | cons cur rest ih =>
    intro hlt best bm a b out a₂ hR h
    have hcur : cur < 9 := hlt cur (List.mem_cons_self _ _)
    have hrest : ∀ c ∈ rest, c < 9 :=
      fun c hc => hlt c (List.mem_cons_of_mem _ hc)
    rw [pwsLoop_cons] at h
    rcases hguard : occ &&& (1 <<< cur) == 0 with _ | _
    · simp only [hguard] at h
      obtain ⟨b₂, h2, hR2⟩ := ih hrest best bm a b out a₂ hR h
      exact ⟨b₂, by rw [pwsLoop_cons, hguard]; exact h2, hR2⟩
    · rcases heval : eval1 a (st.perform (.put (1 <<< cur))) with e | v
      · simp only [hguard, heval] at h
        exact Except.noConfusion h
      · obtain ⟨sc, a₂'⟩ := v
        obtain ⟨b₂', heval2, hR'⟩ := H a b cur hcur hguard hR sc a₂' heval
        rcases hstep : pwsStep st.is_player1 sc best bm (1 <<< cur)
            with e | x
        · simp only [hguard, heval, hstep] at h
          exact Except.noConfusion h
        · rcases x with r₀ | ⟨b', m'⟩
          · simp only [hguard, heval, hstep, Except.ok.injEq,
              Prod.mk.injEq] at h
            refine ⟨b₂', ?_, ?_⟩
            · rw [pwsLoop_cons]
              simp only [hguard, heval2, hstep]
              rw [h.1]
            · rw [← h.2]; exact hR'
          · simp only [hguard, heval, hstep] at h
            obtain ⟨b₂, h2, hR2⟩ := ih hrest b' m' a₂' b₂' out a₂ hR' h
            refine ⟨b₂, ?_, hR2⟩
            rw [pwsLoop_cons]
            simp only [hguard, heval2, hstep]
            exact h2

/-- When some scanned cell is a legal move whose resulting position is an
immediate win for the mover, the loop can only end through the early
mover-win `return`. -/
theorem pwsLoop_win (recur : Cache → GameState →
      Except Fail ((Score × Nat) × Cache)) (st : GameState) :
    ∀ (cs : List Nat) (best : Score) (bm : Nat) (a : Cache)
      (out : LoopOut) (a₂ : Cache),
      (∃ j ∈ cs, (st.legal_moves.occupied &&& (1 <<< j) == 0) = true ∧
        (st.perform (.put (1 <<< j))).score = moverWin st) →
      pwsLoop (childEval recur) st st.legal_moves.occupied cs best bm a =
        .ok (out, a₂) →
      ∃ r, out = .early r := by
  intro cs
  induction cs with
  | nil =>
    intro best bm a out a₂ hex _
    obtain ⟨j, hj, _⟩ := hex
    cases hj
  | cons cur rest ih =>
    intro best bm a out a₂ hex h
    rw [pwsLoop_cons] at h
    obtain ⟨j, hj, hfree, hwin⟩ := hex
    by_cases hjc : j = cur
    · subst hjc
      simp only [hfree,
        childEval_of_scored recur a _ hwin (moverWin_ne_undecided st),
        moverWin_eq, pwsStep_moverWin, Except.ok.injEq, Prod.mk.injEq] at h
      exact ⟨_, h.1.symm⟩
    · have hjr : j ∈ rest := by
        rcases List.mem_cons.mp hj with h' | h'
        · exact absurd h' hjc
        · exact h'
      rcases hguard : st.legal_moves.occupied &&& (1 <<< cur) == 0
          with _ | _
      · simp only [hguard] at h
        exact ih best bm a out a₂ ⟨j, hjr, hfree, hwin⟩ h
      · rcases heval : childEval recur a (st.perform (.put (1 <<< cur)))
            with e | v
        · simp only [hguard, heval] at h
          exact Except.noConfusion h
        · obtain ⟨sc, a₂'⟩ := v
          rcases hstep : pwsStep st.is_player1 sc best bm (1 <<< cur)
              with e | x
          · simp only [hguard, heval, hstep] at h
            exact Except.noConfusion h
          · rcases x with r₀ | ⟨b', m'⟩
            · simp only [hguard, heval, hstep, Except.ok.injEq,
                Prod.mk.injEq] at h
              exact ⟨_, h.1.symm⟩
            · simp only [hguard, heval, hstep] at h
              exact ih b' m' a₂' out a₂ ⟨j, hjr, hfree, hwin⟩ h

/-- The cache-free solver value is insensitive to the fuel as soon as the
fuel exceeds the number of free cells (each recursive call strictly
decreases it). -/
theorem pwsPure_mono : ∀ (f1 : Nat) (st : GameState) (r : Score × Nat)
    (f2 : Nat), freeCount st < f1 → freeCount st < f2 →
    pwsPure f1 st = .ok r → pwsPure f2 st = .ok r := by
  intro f1
  induction f1 with
  | zero => intro st r f2 h1; omega
  | succ f1' ih =>
    intro st r f2 h1 h2 h
    cases f2 with
    | zero => omega
    | succ g2 =>
      rw [pwsPure_succ] at h ⊢
      rcases hloop : pwsLoop (pureEval fun s => pwsPure f1' s) st
          st.legal_moves.occupied cells .Undecided 0 () with e | v
      · simp only [hloop] at h
        exact Except.noConfusion h
      · obtain ⟨out, u⟩ := v
        have hsim := pwsLoop_sim (pureEval fun s => pwsPure f1' s)
          (pureEval fun s => pwsPure g2 s) st st.legal_moves.occupied
          (fun _ _ => True) ?_ cells cells_lt .Undecided 0 () () out u
          trivial hloop
        · obtain ⟨u₂, hloop2, _⟩ := hsim
          simp only [hloop] at h
          simp only [hloop2]
          exact h
        · intro u u' cur hcur hfree _ sc u₂ hev
          by_cases hsU : (st.perform (.put (1 <<< cur))).score = .Undecided
          · rw [pureEval_of_undecided _ _ _ hsU] at hev
            rcases hrec : pwsPure f1' (st.perform (.put (1 <<< cur)))
                with e | r₂
            · simp only [hrec] at hev
              exact Except.noConfusion hev
            · simp only [hrec, Except.ok.injEq, Prod.mk.injEq] at hev
              have hfree' :
                  st.legal_moves.occupied &&& (1 <<< cur) = 0 := by
                simpa using hfree
              have hlt := freeCount_perform_lt st cur hcur hfree'
              have hrec2 : pwsPure g2 (st.perform (.put (1 <<< cur))) =
                  .ok r₂ := ih _ r₂ g2 (by omega) (by omega) hrec
              refine ⟨(), ?_, trivial⟩
              rw [pureEval_of_undecided _ _ _ hsU]
              simp only [hrec2]
              rw [hev.1]
          · refine ⟨(), ?_, trivial⟩
            rw [pureEval_of_scored _ _ _ rfl hsU]
            rw [pureEval_of_scored _ _ _ rfl hsU] at hev
            exact hev

/-- If every legal child of the scanned cells evaluates to a decided
score, and either the running best is decided or some scanned cell is
legal, the loop ends with a decided score. -/
theorem pwsLoop_pure_ok (eval : Unit → GameState → Except Fail (Score × Unit))
    (st : GameState) (occ : Nat) :
    ∀ (cs : List Nat),
      (∀ cur ∈ cs, (occ &&& (1 <<< cur) == 0) = true →
        ∃ sc, eval () (st.perform (.put (1 <<< cur))) = .ok (sc, ()) ∧
          sc ≠ .Undecided) →
      ∀ best bm,
        (best ≠ .Undecided ∨ ∃ j ∈ cs, (occ &&& (1 <<< j) == 0) = true) →
        ∃ out, pwsLoop eval st occ cs best bm () = .ok (out, ()) ∧
          outScore out ≠ .Undecided := by
  intro cs
  induction cs with
  | nil =>
    intro _ best bm hbest
    rcases hbest with hb | ⟨j, hj, _⟩
    · exact ⟨.done (best, bm), by rw [pwsLoop_nil], hb⟩
    · cases hj
  | cons cur rest ih =>
    intro hex best bm hbest
    have hex' := fun c hc => hex c (List.mem_cons_of_mem _ hc)
    rcases hguard : occ &&& (1 <<< cur) == 0 with _ | _
    · have hbest' : best ≠ .Undecided ∨
          ∃ j ∈ rest, (occ &&& (1 <<< j) == 0) = true := by
        rcases hbest with hb | ⟨j, hj, hf⟩
        · exact Or.inl hb
        · right
          refine ⟨j, ?_, hf⟩
          rcases List.mem_cons.mp hj with h' | h'
          · subst h'
            rw [hguard] at hf
            cases hf
          · exact h'
      obtain ⟨out, hloop, hsc⟩ := ih hex' best bm hbest'
      refine ⟨out, ?_, hsc⟩
      rw [pwsLoop_cons]
      simp only [hguard]
      exact hloop
    · obtain ⟨sc, hev, hscne⟩ := hex cur (List.mem_cons_self _ _) hguard
      obtain ⟨x, hstep⟩ :=
        @pwsStep_ok_of_ne st.is_player1 sc best bm (1 <<< cur) hscne
      rcases x with r₀ | ⟨b, m⟩
      · refine ⟨.early r₀, ?_, ?_⟩
        · rw [pwsLoop_cons]
          simp only [hguard, hev, hstep]
        · have hr := (pwsStep_inl hstep).1
          show r₀.1 ≠ .Undecided
          rw [hr]
          rcases st.is_player1 with _ | _ <;> simp
      · have hb := pwsStep_inr_ne hscne hstep
        obtain ⟨out, hloop, hsc⟩ := ih hex' b m (Or.inl hb)
        refine ⟨out, ?_, hsc⟩
        rw [pwsLoop_cons]
        simp only [hguard, hev, hstep]
        exact hloop

/-- With the high-bit invariant, the cache-free solver succeeds on every
undecided position and never classifies it `Undecided` (the abstract form
of C4). -/
theorem pwsPure_ok : ∀ (fuel : Nat) (st : GameState), HighBits st →
    st.score = .Undecided → freeCount st < fuel →
    ∃ sc m, pwsPure fuel st = .ok (sc, m) ∧ sc ≠ .Undecided := by
  intro fuel
  induction fuel with
  | zero => intro st _ _ h; omega
  | succ f ih =>
    intro st hb hs hf
    rw [pwsPure_succ]
    have hex : ∀ cur ∈ cells,
        (st.legal_moves.occupied &&& (1 <<< cur) == 0) = true →
        ∃ sc, pureEval (fun s => pwsPure f s) ()
            (st.perform (.put (1 <<< cur))) = .ok (sc, ()) ∧
          sc ≠ .Undecided := by
      intro cur hc hfree
      have hcur := cells_lt cur hc
      by_cases hsU : (st.perform (.put (1 <<< cur))).score = .Undecided
      · have hb' := highBits_perform st cur hcur hb
        have hfree' : st.legal_moves.occupied &&& (1 <<< cur) = 0 := by
          simpa using hfree
        have hlt := freeCount_perform_lt st cur hcur hfree'
        obtain ⟨sc, m, hok, hne⟩ := ih _ hb' hsU (by omega)
        refine ⟨sc, ?_, hne⟩
        rw [pureEval_of_undecided _ _ _ hsU]
        simp only [hok]
      · refine ⟨(st.perform (.put (1 <<< cur))).score, ?_, hsU⟩
        rw [pureEval_of_scored _ _ _ rfl hsU]
    obtain ⟨i, hi, hfree⟩ := score_undecided_free st hb hs
    have hfreeb : (st.legal_moves.occupied &&& (1 <<< i) == 0) = true := by
      simpa using hfree
    obtain ⟨out, hloop, hsc⟩ := pwsLoop_pure_ok _ st _ cells hex .Undecided 0
      (Or.inr ⟨i, mem_cells hi, hfreeb⟩)
    simp only [hloop]
    rcases out with r | r
    · exact ⟨r.1, r.2, rfl, hsc⟩
    · exact ⟨r.1, r.2, rfl, hsc⟩

/-- Soundness of the memoized solver: on a sound cache, any successful
result is the cache-free solver value, and the returned cache is again
sound. -/
theorem pws_sound : ∀ (fuel : Nat) (c : Cache) (st : GameState)
    (r : Score × Nat) (c' : Cache), Sound c → Bounded st →
    playWithScore fuel c st = .ok (r, c') →
    mm st = .ok r ∧ Sound c' := by
  intro fuel
  induction fuel with
  | zero =>
    intro c st r c' _ _ h
    rw [playWithScore_zero] at h
    exact Except.noConfusion h
  | succ f ih =>
    intro c st r c' hc hb h
    rw [playWithScore_succ] at h
    rcases hfind : BTree.find c (encode st) with _ | r₀
    · simp only [hfind] at h
      rcases hloop : pwsLoop (childEval fun c' s => playWithScore f c' s)
          st st.legal_moves.occupied cells .Undecided 0 c with e | v
      · simp only [hloop] at h
        exact Except.noConfusion h
      · obtain ⟨out, c₂⟩ := v
        have hsim := pwsLoop_sim
          (childEval fun c' s => playWithScore f c' s)
          (pureEval fun s => pwsPure 9 s) st st.legal_moves.occupied
          (fun a _ => Sound a) ?_ cells cells_lt .Undecided 0 c () out c₂
          hc hloop
        · obtain ⟨u₂, hloop2, hsound₂⟩ := hsim
          rcases out with r₁ | r₁
          · simp only [hloop, Except.ok.injEq, Prod.mk.injEq] at h
            constructor
            · show pwsPure (9 + 1) st = .ok r
              rw [pwsPure_succ]
              simp only [hloop2]
              rw [h.1]
            · rw [← h.2]
              exact hsound₂
          · simp only [hloop, Except.ok.injEq, Prod.mk.injEq] at h
            have hmm : mm st = .ok r₁ := by
              show pwsPure (9 + 1) st = .ok r₁
              rw [pwsPure_succ]
              simp only [hloop2]
            constructor
            · rw [hmm, h.1]
            · rw [← h.2]
              exact sound_insert hsound₂ hb hmm
        · intro a b cur hcur hfree hSa sc a₂ hev
          by_cases hsU : (st.perform (.put (1 <<< cur))).score = .Undecided
          · rw [childEval_of_undecided _ _ _ hsU] at hev
            rcases hrec : playWithScore f a (st.perform (.put (1 <<< cur)))
                with e | v
            · simp only [hrec] at hev
              exact Except.noConfusion hev
            · obtain ⟨r₂, c₂'⟩ := v
              simp only [hrec, Except.ok.injEq, Prod.mk.injEq] at hev
              have hbc := bounded_perform st cur hcur hb
              obtain ⟨hmmc, hsound'⟩ := ih a _ r₂ c₂' hSa hbc hrec
              have hfree' : st.legal_moves.occupied &&& (1 <<< cur) = 0 := by
                simpa using hfree
              have hlt := freeCount_perform_lt st cur hcur hfree'
              have hfc := freeCount_le_nine st
              have hpure9 : pwsPure 9 (st.perform (.put (1 <<< cur))) =
                  .ok r₂ := pwsPure_mono 10 _ r₂ 9 (by
                    have := freeCount_le_nine
                      (st.perform (.put (1 <<< cur)))
                    omega) (by omega) hmmc
              refine ⟨(), ?_, by rw [← hev.2]; exact hsound'⟩
              rw [pureEval_of_undecided _ _ _ hsU]
              simp only [hpure9]
              rw [hev.1]
          · rw [childEval_of_scored _ _ _ rfl hsU] at hev
            simp only [Except.ok.injEq, Prod.mk.injEq] at hev
            refine ⟨(), ?_, by rw [← hev.2]; exact hSa⟩
            rw [pureEval_of_scored _ _ _ rfl hsU, hev.1]
    · simp only [hfind, Except.ok.injEq, Prod.mk.injEq] at h
      constructor
      · rw [← h.1]
        exact hc st r₀ hb hfind
      · rw [← h.2]
        exact hc

/-- Completeness of the memoized solver: on a sound cache with enough
fuel, the solver succeeds and returns the cache-free solver value. -/
theorem pws_complete : ∀ (fuel : Nat) (c : Cache) (st : GameState)
    (r : Score × Nat), Sound c → Bounded st → freeCount st < fuel →
    mm st = .ok r →
    ∃ c', playWithScore fuel c st = .ok (r, c') ∧ Sound c' := by
  intro fuel
  induction fuel with
  | zero => intro c st r _ _ h _; omega
  | succ f ih =>
    intro c st r hc hb hf hm
    rw [playWithScore_succ]
    rcases hfind : BTree.find c (encode st) with _ | r₀
    · have hm' : pwsPure (9 + 1) st = .ok r := hm
      rw [pwsPure_succ] at hm'
      rcases hloop : pwsLoop (pureEval fun s => pwsPure 9 s) st
          st.legal_moves.occupied cells .Undecided 0 () with e | v
      · simp only [hloop] at hm'
        exact Except.noConfusion hm'
      · obtain ⟨out, u⟩ := v
        have hsim := pwsLoop_sim (pureEval fun s => pwsPure 9 s)
          (childEval fun c' s => playWithScore f c' s) st
          st.legal_moves.occupied (fun _ b => Sound b) ?_ cells cells_lt
          .Undecided 0 () c out u hc hloop
        · obtain ⟨c₂, hloop2, hsound₂⟩ := hsim
          simp only [hloop] at hm'
          rcases out with r₁ | r₁
          · simp only [Except.ok.injEq] at hm'
            refine ⟨c₂, ?_, hsound₂⟩
            simp only [hfind, hloop2, hm']
          · simp only [Except.ok.injEq] at hm'
            refine ⟨BTree.insert c₂ (encode st) r₁, ?_, ?_⟩
            · simp only [hfind, hloop2]
              rw [hm']
            · exact sound_insert hsound₂ hb (by rw [hm']; exact hm)
        · intro u b cur hcur hfree hSb sc u₂ hev
          by_cases hsU : (st.perform (.put (1 <<< cur))).score = .Undecided
          · rw [pureEval_of_undecided _ _ _ hsU] at hev
            rcases hrec : pwsPure 9 (st.perform (.put (1 <<< cur)))
                with e | r₂
            · simp only [hrec] at hev
              exact Except.noConfusion hev
            · simp only [hrec, Except.ok.injEq, Prod.mk.injEq] at hev
              have hfree' : st.legal_moves.occupied &&& (1 <<< cur) = 0 := by
                simpa using hfree
              have hlt := freeCount_perform_lt st cur hcur hfree'
              have hfc := freeCount_le_nine st
              have hmmc : mm (st.perform (.put (1 <<< cur))) = .ok r₂ :=
                pwsPure_mono 9 _ r₂ 10 (by omega) (by omega) hrec
              have hbc := bounded_perform st cur hcur hb
              obtain ⟨c₂', hok, hsound'⟩ := ih b _ r₂ hSb hbc (by omega) hmmc
              refine ⟨c₂', ?_, hsound'⟩
              rw [childEval_of_undecided _ _ _ hsU]
              simp only [hok]
              rw [hev.1]
          · rw [pureEval_of_scored _ _ _ rfl hsU] at hev
            simp only [Except.ok.injEq, Prod.mk.injEq] at hev
            refine ⟨b, ?_, hSb⟩
            rw [childEval_of_scored _ _ _ rfl hsU, hev.1]
    · have hr₀ := hc st r₀ hb hfind
      rw [hm] at hr₀
      simp only [Except.ok.injEq] at hr₀
      refine ⟨c, ?_, hc⟩
      simp only [hfind]
      rw [hr₀]

/-- C2 (amended, proved part): on a cache miss, whenever
`play_with_score` returns *without* taking the mover-win short-circuit
(equivalently, its outcome is not the mover's win — the completed loop
never yields the mover's win), the resolved pair has been inserted into
the cache under the position's key before returning. -/
theorem claim_C2_cache_insert : ∀ (fuel : Nat) (c : Cache) (st : GameState)
    (sc : Score) (m : Nat) (c' : Cache),
    BTree.find c (encode st) = none →
    playWithScore fuel c st = .ok ((sc, m), c') →
    sc ≠ moverWin st →
    BTree.find c' (encode st) = some (sc, m) := by
  intro fuel c st sc m c' hmiss hok hne
  cases fuel with
  | zero =>
    rw [playWithScore_zero] at hok
    exact Except.noConfusion hok
  | succ f =>
    rw [playWithScore_succ] at hok
    simp only [hmiss] at hok
    rcases hloop : pwsLoop (childEval fun c' s => playWithScore f c' s) st
        st.legal_moves.occupied cells .Undecided 0 c with e | v
    · simp only [hloop] at hok
      exact Except.noConfusion hok
    · obtain ⟨out, c₂⟩ := v
      rcases out with r₁ | r₁
      · have hmw := pwsLoop_early_moverWin _ st _ cells .Undecided 0 c r₁
          c₂ hloop
        simp only [hloop, Except.ok.injEq, Prod.mk.injEq] at hok
        rw [hok.1] at hmw
        exact absurd hmw hne
      · simp only [hloop, Except.ok.injEq, Prod.mk.injEq] at hok
        rw [← hok.2, ← hok.1, BTree.find_insert_self]

/-- C2, counterexample to the claim as stated: on `c2state` the call
completes through the mover-win short-circuit and returns with the cache
still empty — no entry for the position was inserted. -/
theorem claim_C2_counterexample :
    playWithScore 10 .leaf c2state = .ok ((.Player1Wins, 4), .leaf) ∧
      BTree.find (.leaf : Cache) (encode c2state) = none :=
  ⟨rfl, rfl⟩

/-- C2 witness: the amended statement applied to a position resolved as a
draw (no short-circuit), whose pair is indeed cached on return. -/
theorem claim_C2_witness :
    BTree.find (.leaf : Cache) (encode wDraw) = none ∧
      playWithScore 2 .leaf wDraw = .ok ((.Draw, 256), wDrawCache) ∧
      Score.Draw ≠ moverWin wDraw ∧
      BTree.find wDrawCache (encode wDraw) = some (.Draw, 256) :=
  ⟨rfl, rfl, by decide,
    claim_C2_cache_insert 2 .leaf wDraw .Draw 256 wDrawCache rfl rfl
      (by decide)⟩

theorem childOutcome_scored (st : GameState) (i : Nat) {sc : Score}
    (hs : (st.perform (.put (1 <<< i))).score = sc)
    (hne : sc ≠ .Undecided) : childOutcome st i = some sc := by
  unfold childOutcome
  rw [hs]
  cases sc
  · rfl
  · rfl
  · rfl
  · exact absurd rfl hne

theorem childOutcome_undecided (st : GameState) (i : Nat)
    (hs : (st.perform (.put (1 <<< i))).score = .Undecided)
    {r : Score × Nat} (hr : mm (st.perform (.put (1 <<< i))) = .ok r) :
    childOutcome st i = some r.1 := by
  unfold childOutcome
  simp only [hs, hr]

/-- A successful cached child evaluation on a sound cache yields exactly
the `childOutcome` of the cell, and the threaded cache stays sound. -/
theorem childEval_outcome (f : Nat) (st : GameState) (hb : Bounded st)
    (i : Nat) (hi : i < 9) (a : Cache) (ha : Sound a)
    {sc : Score} {a' : Cache}
    (h : childEval (fun c₁ s => playWithScore f c₁ s) a
        (st.perform (.put (1 <<< i))) = .ok (sc, a')) :
    childOutcome st i = some sc ∧ Sound a' := by
  by_cases hsU : (st.perform (.put (1 <<< i))).score = .Undecided
  · rw [childEval_of_undecided _ _ _ hsU] at h
    rcases hrec : playWithScore f a (st.perform (.put (1 <<< i)))
        with e | v
    · simp only [hrec] at h
      exact Except.noConfusion h
    · obtain ⟨r, c₁⟩ := v
      simp only [hrec, Except.ok.injEq, Prod.mk.injEq] at h
      obtain ⟨hr, hsnd⟩ := pws_sound f a (st.perform (.put (1 <<< i))) r
        c₁ ha (bounded_perform st i hi hb) hrec
      refine ⟨?_, ?_⟩
      · rw [childOutcome_undecided st i hsU hr, h.1]
      · rw [← h.2]
        exact hsnd
  · rw [childEval_of_scored _ _ _ rfl hsU] at h
    simp only [Except.ok.injEq, Prod.mk.injEq] at h
    refine ⟨?_, ?_⟩
    · exact childOutcome_scored st i h.1 (h.1 ▸ hsU)
    · rw [← h.2]
      exact ha

/-- If every free cell of the prefix `pre` has a non-mover-win child
evaluation and cell `i` is free with a mover-win child evaluation, the
scan over `pre ++ i :: suf` takes the mover-win short-circuit return at
`i`, with `(mover win, 1 <<< i)` as the early result. -/
theorem pwsLoop_first_win (f : Nat) (st : GameState) (hb : Bounded st)
    (i : Nat) (hi : i < 9)
    (hfree : (st.legal_moves.occupied &&& (1 <<< i) == 0) = true)
    (hwin : childOutcome st i = some (moverWin st)) :
    ∀ (pre : List Nat), (∀ j ∈ pre, j < 9) →
      (∀ j ∈ pre, (st.legal_moves.occupied &&& (1 <<< j) == 0) = true →
        childOutcome st j ≠ some (moverWin st)) →
      ∀ (suf : List Nat) (best : Score) (bm : Nat) (a : Cache), Sound a →
        ∀ (out : LoopOut) (a₂ : Cache),
          pwsLoop (childEval (fun c₁ s => playWithScore f c₁ s)) st
              st.legal_moves.occupied (pre ++ i :: suf) best bm a =
            .ok (out, a₂) →
          out = .early (moverWin st, 1 <<< i) := by
  intro pre
  induction pre with
  | nil =>
    intro _ _ suf best bm a ha out a₂ h
    rw [List.nil_append, pwsLoop_cons] at h
    rcases heval : childEval (fun c₁ s => playWithScore f c₁ s) a
        (st.perform (.put (1 <<< i))) with e | v
    · simp only [hfree, heval] at h
      exact Except.noConfusion h
    · obtain ⟨sc, a₁⟩ := v
      simp only [hfree, heval] at h
      obtain ⟨hco, _⟩ := childEval_outcome f st hb i hi a ha heval
      rw [hwin] at hco
      have hsc : sc = moverWin st := by
        injection hco with h2
        exact h2.symm
      subst hsc
      rw [moverWin_eq st] at h
      simp only [pwsStep_moverWin, Except.ok.injEq, Prod.mk.injEq] at h
      rw [← h.1, moverWin_eq]
  | cons p pre' ih =>
    intro hlt hmin suf best bm a ha out a₂ h
    rw [List.cons_append, pwsLoop_cons] at h
    have hp9 : p < 9 := hlt p (List.mem_cons_self p pre')
    have hlt' : ∀ j ∈ pre', j < 9 :=
      fun j hj => hlt j (List.mem_cons_of_mem p hj)
    have hmin' : ∀ j ∈ pre',
        (st.legal_moves.occupied &&& (1 <<< j) == 0) = true →
        childOutcome st j ≠ some (moverWin st) :=
      fun j hj => hmin j (List.mem_cons_of_mem p hj)
    rcases hguard : st.legal_moves.occupied &&& (1 <<< p) == 0 with _ | _
    · simp only [hguard] at h
      exact ih hlt' hmin' suf best bm a ha out a₂ h
    · rcases heval : childEval (fun c₁ s => playWithScore f c₁ s) a
          (st.perform (.put (1 <<< p))) with e | v
      · simp only [hguard, heval] at h
        exact Except.noConfusion h
      · obtain ⟨sc, a₁⟩ := v
        obtain ⟨hco, hsnd⟩ := childEval_outcome f st hb p hp9 a ha heval
        have hne : sc ≠ moverWin st := by
          intro hcon
          exact hmin p (List.mem_cons_self p pre') hguard
            (by rw [hco, hcon])
        rcases hstep : pwsStep st.is_player1 sc best bm (1 <<< p)
            with e | x
        · simp only [hguard, heval, hstep] at h
          exact Except.noConfusion h
        · rcases x with r₀ | ⟨b, m⟩
          · obtain ⟨hr, hscr⟩ := pwsStep_inl hstep
            exact absurd (by rw [hscr, hr, moverWin_eq]) hne
          · simp only [hguard, heval, hstep] at h
            exact ih hlt' hmin' suf b m a₁ hsnd out a₂ h

/-- C3 (amended, proved part): on a cache miss with a sound cache, at a
position where the mover has an immediately-winning legal move, a
completed `play_with_score` call returns the mover-wins outcome, and the
returned move is the lowest-index free cell whose child evaluation
(`childOutcome`: the child's immediate `score()`, or its
exhaustive-search value when that is `Undecided`) is a mover win — the
cell scan takes the mover-win short-circuit return there, as the
`.early` loop outcome of the last conjunct shows. -/
theorem claim_C3_mover_win : ∀ (fuel : Nat) (c : Cache) (st : GameState)
    (i : Nat) (sc : Score) (m : Nat) (c' : Cache),
    Sound c → Bounded st →
    BTree.find c (encode st) = none →
    (∃ j, j < 9 ∧ st.legal_moves.occupied &&& (1 <<< j) = 0 ∧
      (st.perform (.put (1 <<< j))).score = moverWin st) →
    i < 9 →
    st.legal_moves.occupied &&& (1 <<< i) = 0 →
    childOutcome st i = some (moverWin st) →
    (∀ j, j < i → st.legal_moves.occupied &&& (1 <<< j) = 0 →
      childOutcome st j ≠ some (moverWin st)) →
    playWithScore fuel c st = .ok ((sc, m), c') →
    sc = moverWin st ∧ m = 1 <<< i ∧
      pwsLoop (childEval (fun c₁ s => playWithScore (fuel - 1) c₁ s)) st
          st.legal_moves.occupied cells .Undecided 0 c =
        .ok (.early (sc, m), c') := by
  intro fuel c st i sc m c' hc hb hmiss _hex hi hfree hwin hmin hok
  cases fuel with
  | zero =>
    rw [playWithScore_zero] at hok
    exact Except.noConfusion hok
  | succ f =>
    rw [playWithScore_succ] at hok
    simp only [hmiss] at hok
    rcases hloop : pwsLoop (childEval fun c₁ s => playWithScore f c₁ s) st
        st.legal_moves.occupied cells .Undecided 0 c with e | v
    · simp only [hloop] at hok
      exact Except.noConfusion hok
    · obtain ⟨out, c₂⟩ := v
      have hfreeb : (st.legal_moves.occupied &&& (1 <<< i) == 0) = true := by
        simpa using hfree
      have hout : out = .early (moverWin st, 1 <<< i) := by
        interval_cases i
        · exact pwsLoop_first_win f st hb 0 (by omega) hfreeb hwin
            [] (by decide) (fun j hj hfj => by fin_cases hj)
            [1, 2, 3, 4, 5, 6, 7, 8] .Undecided 0 c hc out c₂ hloop
        · exact pwsLoop_first_win f st hb 1 (by omega) hfreeb hwin
            [0] (by decide)
            (fun j hj hfj => by
              fin_cases hj <;> exact hmin _ (by omega) (by simpa using hfj))
            [2, 3, 4, 5, 6, 7, 8] .Undecided 0 c hc out c₂ hloop
        · exact pwsLoop_first_win f st hb 2 (by omega) hfreeb hwin
            [0, 1] (by decide)
            (fun j hj hfj => by
              fin_cases hj <;> exact hmin _ (by omega) (by simpa using hfj))
            [3, 4, 5, 6, 7, 8] .Undecided 0 c hc out c₂ hloop
        · exact pwsLoop_first_win f st hb 3 (by omega) hfreeb hwin
            [0, 1, 2] (by decide)
            (fun j hj hfj => by
              fin_cases hj <;> exact hmin _ (by omega) (by simpa using hfj))
            [4, 5, 6, 7, 8] .Undecided 0 c hc out c₂ hloop
        · exact pwsLoop_first_win f st hb 4 (by omega) hfreeb hwin
            [0, 1, 2, 3] (by decide)
            (fun j hj hfj => by
              fin_cases hj <;> exact hmin _ (by omega) (by simpa using hfj))
            [5, 6, 7, 8] .Undecided 0 c hc out c₂ hloop
        · exact pwsLoop_first_win f st hb 5 (by omega) hfreeb hwin
            [0, 1, 2, 3, 4] (by decide)
            (fun j hj hfj => by
              fin_cases hj <;> exact hmin _ (by omega) (by simpa using hfj))
            [6, 7, 8] .Undecided 0 c hc out c₂ hloop
        · exact pwsLoop_first_win f st hb 6 (by omega) hfreeb hwin
            [0, 1, 2, 3, 4, 5] (by decide)
            (fun j hj hfj => by
              fin_cases hj <;> exact hmin _ (by omega) (by simpa using hfj))
            [7, 8] .Undecided 0 c hc out c₂ hloop
        · exact pwsLoop_first_win f st hb 7 (by omega) hfreeb hwin
            [0, 1, 2, 3, 4, 5, 6] (by decide)
            (fun j hj hfj => by
              fin_cases hj <;> exact hmin _ (by omega) (by simpa using hfj))
            [8] .Undecided 0 c hc out c₂ hloop
        · exact pwsLoop_first_win f st hb 8 (by omega) hfreeb hwin
            [0, 1, 2, 3, 4, 5, 6, 7] (by decide)
            (fun j hj hfj => by
              fin_cases hj <;> exact hmin _ (by omega) (by simpa using hfj))
            [] .Undecided 0 c hc out c₂ hloop
      subst hout
      simp only [hloop, Except.ok.injEq, Prod.mk.injEq] at hok
      obtain ⟨⟨h1, h2⟩, h3⟩ := hok
      refine ⟨h1.symm, h2.symm, ?_⟩
      simp only [Nat.add_sub_cancel]
      rw [hloop, ← h1, ← h2, ← h3]

/-- C3, counterexample to the claim as stated: on `c3state` the mover's
lowest-index immediately-winning move is cell 1 (mask 2), yet the solver
returns mask 1 (cell 0), a move that does not produce an immediate win —
its recursive evaluation, a forced win, short-circuited the scan first. -/
theorem claim_C3_counterexample :
    resultOf (playWithScore 10 .leaf c3state) = some (.Player1Wins, 1) ∧
      c3state.legal_moves.occupied &&& 2 = 0 ∧
      (c3state.perform (.put 2)).score = .Player1Wins ∧
      (c3state.perform (.put 1)).score ≠ .Player1Wins :=
  ⟨rfl, rfl, rfl, by decide⟩

/-- C3 witness: the amended statement applied to `c2state`, where cell 2
is the lowest-index free cell (cells 0 and 1 are occupied), its child is
an immediate mover win, and the call returns `(Player1Wins, mask 4)`
through the short-circuit. -/
theorem claim_C3_witness :
    Sound (.leaf : Cache) ∧ Bounded c2state ∧
      BTree.find (.leaf : Cache) (encode c2state) = none ∧
      (∃ j, j < 9 ∧ c2state.legal_moves.occupied &&& (1 <<< j) = 0 ∧
        (c2state.perform (.put (1 <<< j))).score = moverWin c2state) ∧
      2 < 9 ∧ c2state.legal_moves.occupied &&& (1 <<< 2) = 0 ∧
      childOutcome c2state 2 = some (moverWin c2state) ∧
      (∀ j, j < 2 → c2state.legal_moves.occupied &&& (1 <<< j) = 0 →
        childOutcome c2state j ≠ some (moverWin c2state)) ∧
      (Score.Player1Wins = moverWin c2state ∧ 4 = 1 <<< 2 ∧
        pwsLoop (childEval (fun c₁ s => playWithScore 9 c₁ s)) c2state
            c2state.legal_moves.occupied cells .Undecided 0 .leaf =
          .ok (.early (.Player1Wins, 4), .leaf)) :=
  ⟨sound_leaf, by decide, rfl, ⟨2, by decide, by decide, by decide⟩,
    by decide, by decide, by decide, by decide,
    claim_C3_mover_win 10 .leaf c2state 2 .Player1Wins 4 .leaf sound_leaf
      (by decide) rfl ⟨2, by decide, by decide, by decide⟩ (by decide)
      (by decide) (by decide) (by decide) rfl⟩

/-- C4: on every reachable undecided position, given a sound cache and
enough fuel, the solver succeeds with an outcome different from
`Undecided`, and in particular never reaches the
`panic!("should not happen")` branch. -/
theorem claim_C4_no_undecided (st : GameState) (h : Reachable st)
    (hs : st.score = .Undecided) (fuel : Nat) (c : Cache) (hc : Sound c)
    (hf : freeCount st < fuel) :
    (∃ sc m c', playWithScore fuel c st = .ok ((sc, m), c') ∧
      sc ≠ .Undecided) ∧
    playWithScore fuel c st ≠ .error .panicked := by
  have hb := reachable_highBits h
  have hbd := bounded_of_highBits hb
  obtain ⟨sc, m, hpure, hne⟩ := pwsPure_ok 10 st hb hs
    (by have := freeCount_le_nine st; omega)
  have hmm : mm st = .ok (sc, m) := hpure
  obtain ⟨c', hok, _⟩ := pws_complete fuel c st (sc, m) hc hbd hf hmm
  constructor
  · exact ⟨sc, m, c', hok, hne⟩
  · rw [hok]
    intro hcon
    exact Except.noConfusion hcon

/-- C4 witness: applied to the initial position with the empty cache. -/
theorem claim_C4_witness :
    Reachable GameState.default ∧ GameState.default.score = .Undecided ∧
      Sound (.leaf : Cache) ∧ freeCount GameState.default < 10 ∧
      ((∃ sc m c', playWithScore 10 .leaf GameState.default =
          .ok ((sc, m), c') ∧ sc ≠ .Undecided) ∧
        playWithScore 10 .leaf GameState.default ≠ .error .panicked) :=
  ⟨Reachable.base, by decide, sound_leaf, by decide,
    claim_C4_no_undecided GameState.default Reachable.base (by decide) 10
      .leaf sound_leaf (by decide)⟩

/-- C6: the solver is idempotent: a second call on the same position,
continuing from the cache state left by a completed first call, returns
the identical `(outcome, move)` pair. -/
theorem claim_C6_idempotent (st : GameState) (fuel₁ fuel₂ : Nat)
    (c c₁ : Cache) (r : Score × Nat) (hc : Sound c) (hb : Bounded st)
    (h1 : playWithScore fuel₁ c st = .ok (r, c₁))
    (hf : freeCount st < fuel₂) :
    ∃ c₂, playWithScore fuel₂ c₁ st = .ok (r, c₂) := by
  obtain ⟨hmm, hsound₁⟩ := pws_sound fuel₁ c st r c₁ hc hb h1
  obtain ⟨c₂, h2, _⟩ := pws_complete fuel₂ c₁ st r hsound₁ hb hf hmm
  exact ⟨c₂, h2⟩

/-- C6 witness: applied to a one-free-cell position solved to a draw. -/
theorem claim_C6_witness :
    Sound (.leaf : Cache) ∧ Bounded wDraw ∧
      playWithScore 2 .leaf wDraw = .ok ((.Draw, 256), wDrawCache) ∧
      freeCount wDraw < 2 ∧
      ∃ c₂, playWithScore 2 wDrawCache wDraw = .ok ((.Draw, 256), c₂) :=
  ⟨sound_leaf, by decide, rfl, by decide,
    claim_C6_idempotent wDraw 2 2 .leaf wDrawCache (.Draw, 256) sound_leaf
      (by decide) rfl (by decide)⟩

/-- C10 witness: the statement applied at the initial state. -/
theorem claim_C10_witness :
    (∀ j, 9 ≤ j → j < 16 →
      GameState.default.player1.testBit j = true ∧
        GameState.default.player2.testBit j = true) ∧
    ((GameState.default.player1 ||| GameState.default.player2 = 65535) ↔
      ∀ i, i < 9 →
        GameState.default.legal_moves.occupied.testBit i = true) ∧
    countZeros GameState.default.legal_moves.occupied =
      freeCount GameState.default :=
  claim_C10_high_bits GameState.default Reachable.base

/-! The solver value of the empty board is established by evaluating the
solver on each of the nine opening moves separately (each an
eight-ply search, kept small enough for the kernel) and composing the
results through the soundness/completeness metatheory: each cached child
value equals the cache-free value `mm`, fuel monotonicity turns those
into the child evaluations performed inside `pwsPure 10`, one unfolding
of the root loop yields `mm GameState.default`, and completeness
transports the value back to `play_with_score` on the empty cache. -/

set_option maxHeartbeats 4000000 in
theorem child0_value : resultOf (playWithScore 9 .leaf
    (GameState.default.perform (.put (1 <<< 0)))) = some (.Draw, 16) := by
  decide

set_option maxHeartbeats 4000000 in
theorem child1_value : resultOf (playWithScore 9 .leaf
    (GameState.default.perform (.put (1 <<< 1)))) = some (.Draw, 1) := by
  decide

set_option maxHeartbeats 4000000 in
theorem child2_value : resultOf (playWithScore 9 .leaf
    (GameState.default.perform (.put (1 <<< 2)))) = some (.Draw, 16) := by
  decide

set_option maxHeartbeats 4000000 in
theorem child3_value : resultOf (playWithScore 9 .leaf
    (GameState.default.perform (.put (1 <<< 3)))) = some (.Draw, 1) := by
  decide

set_option maxHeartbeats 4000000 in
theorem child4_value : resultOf (playWithScore 9 .leaf
    (GameState.default.perform (.put (1 <<< 4)))) = some (.Draw, 1) := by
  decide

set_option maxHeartbeats 4000000 in
theorem child5_value : resultOf (playWithScore 9 .leaf
    (GameState.default.perform (.put (1 <<< 5)))) = some (.Draw, 4) := by
  decide

set_option maxHeartbeats 4000000 in
theorem child6_value : resultOf (playWithScore 9 .leaf
    (GameState.default.perform (.put (1 <<< 6)))) = some (.Draw, 16) := by
  decide

set_option maxHeartbeats 4000000 in
theorem child7_value : resultOf (playWithScore 9 .leaf
    (GameState.default.perform (.put (1 <<< 7)))) = some (.Draw, 2) := by
  decide

set_option maxHeartbeats 4000000 in
theorem child8_value : resultOf (playWithScore 9 .leaf
    (GameState.default.perform (.put (1 <<< 8)))) = some (.Draw, 16) := by
  decide

/-- A cached solver value on the empty cache is also the fuel-9
cache-free value: soundness gives the `mm` (fuel-10) value and fuel
monotonicity lowers it to fuel 9. -/
theorem pure9_of_cached (st : GameState) (r : Score × Nat)
    (hb : Bounded st) (hf : freeCount st < 9)
    (h : resultOf (playWithScore 9 .leaf st) = some r) :
    pwsPure 9 st = .ok r := by
  rcases he : playWithScore 9 .leaf st with e | ⟨p, c⟩
  · rw [he] at h
    exact Option.noConfusion h
  · rw [he] at h
    simp only [resultOf, Option.some.injEq] at h
    subst h
    have hs := pws_sound 9 .leaf st p c sound_leaf hb he
    exact pwsPure_mono 10 st p 9 (by omega) hf hs.1

theorem child0_pure : pwsPure 9 (GameState.default.perform (.put (1 <<< 0)))
    = .ok (.Draw, 16) :=
  pure9_of_cached _ _ (by decide) (by decide) child0_value

theorem child1_pure : pwsPure 9 (GameState.default.perform (.put (1 <<< 1)))
    = .ok (.Draw, 1) :=
  pure9_of_cached _ _ (by decide) (by decide) child1_value

theorem child2_pure : pwsPure 9 (GameState.default.perform (.put (1 <<< 2)))
    = .ok (.Draw, 16) :=
  pure9_of_cached _ _ (by decide) (by decide) child2_value

theorem child3_pure : pwsPure 9 (GameState.default.perform (.put (1 <<< 3)))
    = .ok (.Draw, 1) :=
  pure9_of_cached _ _ (by decide) (by decide) child3_value

theorem child4_pure : pwsPure 9 (GameState.default.perform (.put (1 <<< 4)))
    = .ok (.Draw, 1) :=
  pure9_of_cached _ _ (by decide) (by decide) child4_value

theorem child5_pure : pwsPure 9 (GameState.default.perform (.put (1 <<< 5)))
    = .ok (.Draw, 4) :=
  pure9_of_cached _ _ (by decide) (by decide) child5_value

theorem child6_pure : pwsPure 9 (GameState.default.perform (.put (1 <<< 6)))
    = .ok (.Draw, 16) :=
  pure9_of_cached _ _ (by decide) (by decide) child6_value

theorem child7_pure : pwsPure 9 (GameState.default.perform (.put (1 <<< 7)))
    = .ok (.Draw, 2) :=
  pure9_of_cached _ _ (by decide) (by decide) child7_value

theorem child8_pure : pwsPure 9 (GameState.default.perform (.put (1 <<< 8)))
    = .ok (.Draw, 16) :=
  pure9_of_cached _ _ (by decide) (by decide) child8_value

/-- The two `pwsStep` arms met while folding nine draw-valued children:
a draw over `Undecided` updates the best pair, a draw over a draw is
skipped. -/
theorem pwsStep_draw_undecided (p : Bool) (bm m : Nat) :
    pwsStep p .Draw .Undecided bm m = .ok (.inr (.Draw, m)) := rfl

theorem pwsStep_draw_draw (p : Bool) (bm m : Nat) :
    pwsStep p .Draw .Draw bm m = .ok (.inr (.Draw, bm)) := rfl

/-- Folding the solver loop over cells whose children all evaluate to a
draw, with the running best already a draw: every step hits the skip
arm, so the loop falls through with its `(best, best_mask)` pair. -/
theorem pwsLoop_unit_draw (eval : Unit → GameState → Except Fail (Score × Unit))
    (st : GameState) (occ : Nat) :
    ∀ (l : List Nat) (bm : Nat),
      (∀ cur ∈ l, (occ &&& (1 <<< cur) == 0) = true ∧
        eval () (st.perform (.put (1 <<< cur))) = .ok (.Draw, ())) →
      pwsLoop eval st occ l .Draw bm () = .ok (.done (.Draw, bm), ()) := by
  intro l
  induction l with
  | nil =>
    intro bm _
    exact pwsLoop_nil eval st occ .Draw bm ()
  | cons cur rest ih =>
    intro bm h
    obtain ⟨hg, he⟩ := h cur (List.mem_cons_self cur rest)
    rw [pwsLoop_cons]
    simp only [hg, he, pwsStep_draw_draw]
    exact ih bm (fun c hc => h c (List.mem_cons_of_mem cur hc))

/-- The first loop step from an `Undecided` best on a free draw-valued
cell: the update arm records `(Draw, 1 << cur)` and the scan goes on. -/
theorem pwsLoop_head_draw (eval : Unit → GameState → Except Fail (Score × Unit))
    (st : GameState) (occ cur : Nat) (rest : List Nat) (bm : Nat)
    (hg : (occ &&& (1 <<< cur) == 0) = true)
    (he : eval () (st.perform (.put (1 <<< cur))) = .ok (.Draw, ())) :
    pwsLoop eval st occ (cur :: rest) .Undecided bm () =
      pwsLoop eval st occ rest .Draw (1 <<< cur) () := by
  rw [pwsLoop_cons]
  simp only [hg, he, pwsStep_draw_undecided]

/-- The cache-free child evaluation of a draw-valued undecided child. -/
theorem pureEval_child_draw (next : GameState) (m : Nat)
    (hs : next.score = .Undecided)
    (h : pwsPure 9 next = .ok (.Draw, m)) :
    pureEval (fun s => pwsPure 9 s) () next = .ok (.Draw, ()) := by
  rw [pureEval_of_undecided (fun s => pwsPure 9 s) () next hs]
  simp only [h]

/-- The exhaustive-search value of the empty board is `Draw` (with the
lowest-index cell as the recorded move): one unfolding of the solver
loop over the nine opening moves, using the nine child values. -/
theorem mm_default : pwsPure 10 GameState.default = .ok (.Draw, 1) := by
  have e0 : pureEval (fun s => pwsPure 9 s) ()
      (GameState.default.perform (.put (1 <<< 0))) = .ok (.Draw, ()) :=
    pureEval_child_draw _ _ (by decide) child0_pure
  have e1 : pureEval (fun s => pwsPure 9 s) ()
      (GameState.default.perform (.put (1 <<< 1))) = .ok (.Draw, ()) :=
    pureEval_child_draw _ _ (by decide) child1_pure
  have e2 : pureEval (fun s => pwsPure 9 s) ()
      (GameState.default.perform (.put (1 <<< 2))) = .ok (.Draw, ()) :=
    pureEval_child_draw _ _ (by decide) child2_pure
  have e3 : pureEval (fun s => pwsPure 9 s) ()
      (GameState.default.perform (.put (1 <<< 3))) = .ok (.Draw, ()) :=
    pureEval_child_draw _ _ (by decide) child3_pure
  have e4 : pureEval (fun s => pwsPure 9 s) ()
      (GameState.default.perform (.put (1 <<< 4))) = .ok (.Draw, ()) :=
    pureEval_child_draw _ _ (by decide) child4_pure
  have e5 : pureEval (fun s => pwsPure 9 s) ()
      (GameState.default.perform (.put (1 <<< 5))) = .ok (.Draw, ()) :=
    pureEval_child_draw _ _ (by decide) child5_pure
  have e6 : pureEval (fun s => pwsPure 9 s) ()
      (GameState.default.perform (.put (1 <<< 6))) = .ok (.Draw, ()) :=
    pureEval_child_draw _ _ (by decide) child6_pure
  have e7 : pureEval (fun s => pwsPure 9 s) ()
      (GameState.default.perform (.put (1 <<< 7))) = .ok (.Draw, ()) :=
    pureEval_child_draw _ _ (by decide) child7_pure
  have e8 : pureEval (fun s => pwsPure 9 s) ()
      (GameState.default.perform (.put (1 <<< 8))) = .ok (.Draw, ()) :=
    pureEval_child_draw _ _ (by decide) child8_pure
  have hloop : pwsLoop (pureEval (fun s => pwsPure 9 s)) GameState.default
      65024 (0 :: [1, 2, 3, 4, 5, 6, 7, 8]) .Undecided 0 () =
      .ok (.done (.Draw, 1 <<< 0), ()) := by
    rw [pwsLoop_head_draw _ _ _ _ _ _ (by decide) e0]
    apply pwsLoop_unit_draw
    intro c hc
    fin_cases hc
    · exact ⟨by decide, e1⟩
    · exact ⟨by decide, e2⟩
    · exact ⟨by decide, e3⟩
    · exact ⟨by decide, e4⟩
    · exact ⟨by decide, e5⟩
    · exact ⟨by decide, e6⟩
    · exact ⟨by decide, e7⟩
    · exact ⟨by decide, e8⟩
  rw [show (10 : Nat) = 9 + 1 from rfl, pwsPure_succ,
    show GameState.default.legal_moves.occupied = 65024 from rfl,
    show cells = 0 :: [1, 2, 3, 4, 5, 6, 7, 8] from rfl]
  simp only [hloop]
  rfl

/-- C1: on the initial empty board the solver's exhaustive search
returns outcome `Draw`, tic-tac-toe's game-theoretic minimax value. -/
theorem claim_C1_solver_draw :
    scoreOf (playWithScore 10 .leaf GameState.default) = some .Draw := by
  obtain ⟨c₂, h, _⟩ := pws_complete 10 .leaf GameState.default (.Draw, 1)
    sound_leaf (by decide) (by decide) mm_default
  rw [h]
  rfl

theorem visMono_refl (t : BTree Node) : visMono t t :=
  fun k n h => ⟨n, h, le_refl _⟩

theorem visMono_trans {t1 t2 t3 : BTree Node} (h12 : visMono t1 t2)
    (h23 : visMono t2 t3) : visMono t1 t3 := by
  intro k n h
  obtain ⟨n2, h2, hv2⟩ := h12 k n h
  obtain ⟨n3, h3, hv3⟩ := h23 k n2 h2
  exact ⟨n3, h3, le_trans hv2 hv3⟩

theorem visMono_insert_new {t : BTree Node} {k : Nat}
    (h : BTree.find t k = none) (v : Node) : visMono t (t.insert k v) := by
  intro k' n hfind
  by_cases hk : k' = k
  · subst hk
    rw [h] at hfind
    cases hfind
  · rw [BTree.find_insert_ne _ _ _ _ hk]
    exact ⟨n, hfind, le_refl _⟩

theorem visMono_insert_ge {t : BTree Node} {k : Nat} {n₀ v : Node}
    (h : BTree.find t k = some n₀) (hv : n₀.visited ≤ v.visited) :
    visMono t (t.insert k v) := by
  intro k' n hfind
  by_cases hk : k' = k
  · subst hk
    rw [h] at hfind
    cases hfind
    exact ⟨v, BTree.find_insert_self _ _ _, hv⟩
  · rw [BTree.find_insert_ne _ _ _ _ hk]
    exact ⟨n, hfind, le_refl _⟩

theorem wfCounters_insert {t : BTree Node} (hWF : WFcounters t) {k : Nat}
    {v : Node} (hv : v.wins ≤ v.visited) : WFcounters (t.insert k v) := by
  intro k' n hfind
  by_cases hk : k' = k
  · subst hk
    rw [BTree.find_insert_self] at hfind
    cases hfind
    exact hv
  · rw [BTree.find_insert_ne _ _ _ _ hk] at hfind
    exact hWF k' n hfind

theorem soChild_mono_wf {t : BTree Node} {node : Node}
    {stK nextK b : Nat} {t1 : BTree Node}
    (hnode : BTree.find t stK = some node)
    (h : soChild t node stK nextK b = some t1) :
    visMono t t1 ∧ (WFcounters t → WFcounters t1) := by
  rcases hflag : node.moves.getD b false with _ | _
  · rcases hfind : BTree.find t nextK with _ | a
    · simp only [soChild, hflag, hfind, Option.some.injEq] at h
      subst h
      have hne : stK ≠ nextK := by
        intro hk
        rw [hk, hfind] at hnode
        cases hnode
      have hnode' : BTree.find (t.insert nextK Node.init) stK =
          some node := by
        rw [BTree.find_insert_ne _ _ _ _ hne]
        exact hnode
      constructor
      · exact visMono_trans (visMono_insert_new hfind Node.init)
          (visMono_insert_ge hnode' (le_refl _))
      · intro hWF
        exact wfCounters_insert (wfCounters_insert hWF (le_refl 0))
          (hWF stK node hnode)
    · rcases hz : a.visited == 0 with _ | _
      · simp only [soChild, hflag, hfind, hz, Option.some.injEq] at h
        subst h
        constructor
        · exact visMono_insert_ge hnode (le_refl _)
        · intro hWF
          exact wfCounters_insert hWF (hWF stK node hnode)
      · simp only [soChild, hflag, hfind, hz] at h
        exact Option.noConfusion h
  · rcases hfind : BTree.find t nextK with _ | a
    · simp only [soChild, hflag, hfind] at h
      exact Option.noConfusion h
    · simp only [soChild, hflag, hfind, Option.some.injEq] at h
      subst h
      exact ⟨visMono_refl t, fun hWF => hWF⟩

theorem soBackprop_mono_wf (rt : Option Nat × BTree Node) (nextK : Nat)
    (hr : ∀ v, rt.1 = some v → v ≤ 1) :
    visMono rt.2 (soBackprop rt nextK).2 ∧
      (WFcounters rt.2 → WFcounters (soBackprop rt nextK).2) ∧
      (∀ v, (soBackprop rt nextK).1 = some v → v ≤ 1) := by
  obtain ⟨ro, t2⟩ := rt
  rcases ro with _ | r
  · simp only [soBackprop]
    exact ⟨visMono_refl _, fun h => h, fun v hv => by cases hv⟩
  · have hr1 : r ≤ 1 := hr r rfl
    rcases hfind : BTree.find t2 nextK with _ | cnode
    · simp only [soBackprop, hfind]
      exact ⟨visMono_refl _, fun h => h, fun v hv => by cases hv⟩
    · simp only [soBackprop, hfind]
      refine ⟨visMono_insert_ge hfind (Nat.le_succ _), ?_, ?_⟩
      · intro hWF
        apply wfCounters_insert hWF
        have := hWF nextK cnode hfind
        show cnode.wins + r ≤ cnode.visited + 1
        omega
      · intro v hv
        simp only [Option.some.injEq] at hv
        omega

theorem searchOne_zero (sel : BTree Node → GameState → Nat)
    (t : BTree Node) (st : GameState) (p : Bool) :
    searchOne sel 0 t st p = (none, t) := rfl

theorem searchOne_succ (sel : BTree Node → GameState → Nat) (fuel : Nat)
    (t : BTree Node) (st : GameState) (curP1 : Bool) :
    searchOne sel (fuel + 1) t st curP1 =
      match BTree.find t (encode st) with
      | none => (none, t)
      | some node =>
        match soChild t node (encode st)
            (encode (st.perform (.put (1 <<< pickIdx sel t st))))
            (pickIdx sel t st) with
        | none => (none, t)
        | some t1 =>
          soBackprop
            (soResult (fun t' s' => searchOne sel fuel t' s' curP1) t1
              (st.perform (.put (1 <<< pickIdx sel t st))) curP1)
            (encode (st.perform (.put (1 <<< pickIdx sel t st)))) := rfl

theorem searchOne_mono_wf (sel : BTree Node → GameState → Nat) :
    ∀ (fuel : Nat) (t : BTree Node) (st : GameState) (curP1 : Bool)
      (r : Option Nat) (t' : BTree Node),
      searchOne sel fuel t st curP1 = (r, t') →
      visMono t t' ∧ (WFcounters t → WFcounters t') ∧
        (∀ v, r = some v → v ≤ 1) := by
  intro fuel
  induction fuel with
  | zero =>
    intro t st curP1 r t' h
    rw [searchOne_zero] at h
    simp only [Prod.mk.injEq] at h
    rw [← h.1, ← h.2]
    exact ⟨visMono_refl t, fun hW => hW, fun v hv => by cases hv⟩
  | succ f ih =>
    intro t st curP1 r t' h
    rw [searchOne_succ] at h
    rcases hfind : BTree.find t (encode st) with _ | node
    · simp only [hfind, Prod.mk.injEq] at h
      rw [← h.1, ← h.2]
      exact ⟨visMono_refl t, fun hW => hW, fun v hv => by cases hv⟩
    · simp only [hfind] at h
      rcases hch : soChild t node (encode st)
          (encode (st.perform (.put (1 <<< pickIdx sel t st))))
          (pickIdx sel t st) with _ | t1
      · simp only [hch, Prod.mk.injEq] at h
        rw [← h.1, ← h.2]
        exact ⟨visMono_refl t, fun hW => hW, fun v hv => by cases hv⟩
      · simp only [hch] at h
        obtain ⟨m1, w1⟩ := soChild_mono_wf hfind hch
        rcases hres : soResult (fun t' s' => searchOne sel f t' s' curP1)
            t1 (st.perform (.put (1 <<< pickIdx sel t st))) curP1
            with ⟨ro, t₂⟩
        have hmid : visMono t1 t₂ ∧ (WFcounters t1 → WFcounters t₂) ∧
            (∀ v, ro = some v → v ≤ 1) := by
          unfold soResult at hres
          rcases hsc : (st.perform (.put (1 <<< pickIdx sel t st))).score
              with _ | _ | _ | _ <;> rw [hsc] at hres <;>
            rcases curP1 with _ | _ <;>
            simp only [Prod.mk.injEq] at hres
          case Undecided.false => exact ih t1 _ false ro t₂ hres
          case Undecided.true => exact ih t1 _ true ro t₂ hres
          all_goals
            rw [← hres.1, ← hres.2]
            exact ⟨visMono_refl t1, fun hW => hW, fun v hv => by
              simp only [Option.some.injEq] at hv
              omega⟩
        rw [hres] at h
        have hbp := soBackprop_mono_wf (ro, t₂)
          (encode (st.perform (.put (1 <<< pickIdx sel t st))))
          hmid.2.2
        rw [h] at hbp
        refine ⟨visMono_trans m1 (visMono_trans hmid.1 hbp.1), ?_, hbp.2.2⟩
        intro hW
        exact hbp.2.1 (hmid.2.1 (w1 hW))

theorem playIters_zero (sel : BTree Node → GameState → Nat) (fuel : Nat)
    (t : BTree Node) (st : GameState) :
    playIters sel fuel 0 t st = some t := rfl

theorem playIters_succ (sel : BTree Node → GameState → Nat) (fuel n : Nat)
    (t : BTree Node) (st : GameState) :
    playIters sel fuel (n + 1) t st =
      match searchOne sel fuel t st st.is_player1 with
      | (none, _) => none
      | (some r, t') =>
        match BTree.find t' (encode st) with
        | none => none
        | some nd =>
          playIters sel fuel n
            (t'.insert (encode st)
              { nd with visited := nd.visited + 1, wins := nd.wins + r })
            st := rfl

theorem playIters_mono_wf (sel : BTree Node → GameState → Nat)
    (fuel : Nat) :
    ∀ (n : Nat) (t : BTree Node) (st : GameState) (t' : BTree Node),
      playIters sel fuel n t st = some t' →
      visMono t t' ∧ (WFcounters t → WFcounters t') := by
  intro n
  induction n with
  | zero =>
    intro t st t' h
    rw [playIters_zero] at h
    cases h
    exact ⟨visMono_refl t, fun hW => hW⟩
  | succ n ih =>
    intro t st t' h
    rw [playIters_succ] at h
    rcases hso : searchOne sel fuel t st st.is_player1 with ⟨ro, t₁⟩
    rcases ro with _ | r
    · simp only [hso] at h
      cases h
    · simp only [hso] at h
      rcases hfind : BTree.find t₁ (encode st) with _ | nd
      · simp only [hfind] at h
        cases h
      · simp only [hfind] at h
        obtain ⟨m1, w1, hr⟩ := searchOne_mono_wf sel fuel t st
          st.is_player1 (some r) t₁ hso
        obtain ⟨m2, w2⟩ := ih _ st t' h
        constructor
        · exact visMono_trans m1 (visMono_trans
            (visMono_insert_ge hfind (Nat.le_succ _)) m2)
        · intro hW
          apply w2
          apply wfCounters_insert (w1 hW)
          have := (w1 hW) (encode st) nd hfind
          have hr1 := hr r rfl
          simp only []
          omega

theorem mctsPlayGo_mono_wf (sel : BTree Node → GameState → Nat)
    (fuel : Nat) (t1 : BTree Node) (st : GameState) (node : Node)
    (iters : Nat) (m : Nat) (t' : BTree Node)
    (h : mctsPlayGo sel fuel t1 st node iters = some (m, t')) :
    visMono t1 t' ∧ (WFcounters t1 → WFcounters t') := by
  unfold mctsPlayGo at h
  rcases hblt : Nat.blt node.visited 5477 with _ | _
  · simp only [hblt] at h
    rcases hfind : BTree.find t1 (encode st) with _ | n2 <;>
      simp only [hfind, Option.some.injEq, Prod.mk.injEq] at h <;>
      rw [← h.2] <;>
      exact ⟨visMono_refl t1, fun hW => hW⟩
  · simp only [hblt] at h
    rcases hit : playIters sel fuel iters t1 st with _ | t2
    · simp only [hit] at h
      exact Option.noConfusion h
    · simp only [hit] at h
      obtain ⟨m2, w2⟩ := playIters_mono_wf sel fuel iters t1 st t2 hit
      rcases hfind : BTree.find t2 (encode st) with _ | n2 <;>
        simp only [hfind, Option.some.injEq, Prod.mk.injEq] at h <;>
        rw [← h.2] <;>
        exact ⟨m2, w2⟩

/-- C7: after every operation of the MCTS strategy — any `search_one`
call and any completed `play` call — every node's `visited` count has
not decreased, and the invariant `wins <= visited` is preserved. -/
theorem claim_C7_mcts_counters (sel : BTree Node → GameState → Nat)
    (fuel : Nat) (t : BTree Node) (st : GameState) (curP1 : Bool) :
    (∀ r t', searchOne sel fuel t st curP1 = (r, t') →
      visMono t t' ∧ (WFcounters t → WFcounters t')) ∧
    (∀ m t', mctsPlay sel fuel t st = some (m, t') →
      visMono t t' ∧ (WFcounters t → WFcounters t')) := by
  constructor
  · intro r t' h
    obtain ⟨m1, w1, _⟩ := searchOne_mono_wf sel fuel t st curP1 r t' h
    exact ⟨m1, w1⟩
  · intro m t' h
    unfold mctsPlay at h
    rcases hfind : BTree.find t (encode st) with _ | n
    · rw [hfind] at h
      obtain ⟨m1, w1⟩ := mctsPlayGo_mono_wf sel fuel
        (t.insert (encode st) Node.init) st Node.init _ m t' h
      constructor
      · exact visMono_trans (visMono_insert_new hfind Node.init) m1
      · intro hW
        exact w1 (wfCounters_insert hW (le_refl 0))
    · rw [hfind] at h
      exact mctsPlayGo_mono_wf sel fuel t st n _ m t' h

theorem perform_flips (st : GameState) (m : Nat) :
    (st.perform (.put m)).is_player1 = !st.is_player1 := by
  rcases h : st.is_player1 with _ | _
  · rw [perform_of_isP2 st m h]
    rfl
  · rw [perform_of_isP1 st m h]
    rfl

theorem freeCount_perform_le (st : GameState) (m : Nat) :
    freeCount (st.perform (.put m)) ≤ freeCount st := by
  unfold freeCount
  apply List.countP_mono_left
  intro i _ hp
  rw [occupied_perform] at hp
  simp only [Nat.testBit_lor, Bool.not_eq_eq_eq_not, Bool.not_true,
    Bool.or_eq_false_iff] at hp
  simp [hp.1]

theorem encode_mod_low (st : GameState) (hb : Bounded st) :
    encode st % 65536 = st.player1 := by
  obtain ⟨b1, b2⟩ := hb
  unfold encode
  rcases hf : st.is_player1 with _ | _ <;>
    simp only [cond_true, cond_false] <;> omega

theorem encode_div_mid (st : GameState) (hb : Bounded st) :
    encode st / 65536 % 65536 = st.player2 := by
  obtain ⟨b1, b2⟩ := hb
  unfold encode
  rcases hf : st.is_player1 with _ | _ <;>
    simp only [cond_true, cond_false] <;> omega

theorem decode_encode (st : GameState) (hb : Bounded st) :
    decodeK (encode st) = st := by
  have h1 := encode_mod_low st hb
  have h2 := encode_div_mid st hb
  obtain ⟨b1, b2⟩ := hb
  unfold decodeK
  rcases st with ⟨p1, p2, f⟩
  simp only at h1 h2 b1 b2
  simp only [GameState.mk.injEq]
  refine ⟨h1, h2, ?_⟩
  unfold encode at h1 h2 ⊢
  simp only at h1 h2 ⊢
  rcases f with _ | _ <;> simp only [cond_true, cond_false]
  · have : (p1 + 65536 * p2 + 4294967296 * 0) / 4294967296 % 2 = 0 := by
      omega
    rw [this]
    rfl
  · have : (p1 + 65536 * p2 + 4294967296 * 1) / 4294967296 % 2 = 1 := by
      omega
    rw [this]
    rfl

theorem keyFree_encode (st : GameState) (hb : Bounded st) :
    keyFree (encode st) = freeCount st := by
  unfold keyFree freeCount
  simp only [encode_mod_low st hb, encode_div_mid st hb]
  rfl

theorem childKey_encode (st : GameState) (hb : Bounded st) (i : Nat) :
    childKey (encode st) i = encode (st.perform (.put (1 <<< i))) := by
  unfold childKey
  rw [decode_encode st hb]

theorem find_single {β : Type} {a : Nat} {v : β} {k : Nat} {n : β}
    (h : BTree.find (BTree.node .leaf a v .leaf) k = some n) :
    k = a ∧ n = v := by
  rw [BTree.find_node] at h
  rcases hb : Nat.blt k a with _ | _ <;> rw [hb] at h
  · rcases hb2 : Nat.blt a k with _ | _ <;> rw [hb2] at h
    · simp only [Option.some.injEq] at h
      have h1 : ¬ k < a := fun hlt => by
        rw [blt_true_of_lt hlt] at hb
        exact Bool.noConfusion hb
      have h2 : ¬ a < k := fun hlt => by
        rw [blt_true_of_lt hlt] at hb2
        exact Bool.noConfusion hb2
      exact ⟨by omega, h.symm⟩
    · rw [BTree.find_leaf] at h
      exact Option.noConfusion h
  · rw [BTree.find_leaf] at h
    exact Option.noConfusion h

theorem replicate_getD_false (i : Nat) :
    (List.replicate 9 false).getD i false = false := by
  rcases Nat.lt_or_ge i 9 with hi | hi
  · interval_cases i <;> rfl
  · rw [List.getD_eq_default]
    simpa using hi

theorem find_insert_isSome {β : Type} (t : BTree β) (k k' : Nat) (v : β)
    (h : (BTree.find t k').isSome = true) :
    (BTree.find (t.insert k v) k').isSome = true := by
  by_cases hk : k' = k
  · subst hk
    rw [BTree.find_insert_self]
    rfl
  · rw [BTree.find_insert_ne _ _ _ _ hk]
    exact h

theorem pickIdx_spec (sel : BTree Node → GameState → Nat) (t : BTree Node)
    (st : GameState)
    (h : (List.range 9).filter
      (fun i => st.legal_moves.occupied &&& (1 <<< i) == 0) ≠ []) :
    pickIdx sel t st ∈ (List.range 9).filter
      (fun i => st.legal_moves.occupied &&& (1 <<< i) == 0) := by
  simp only [pickIdx]
  rcases hf : (List.range 9).filter
      (fun i => st.legal_moves.occupied &&& (1 <<< i) == 0)
      with _ | ⟨f, fs⟩
  · exact absurd hf h
  · rcases hc : (f :: fs).contains (sel t st) with _ | _
    · show f ∈ f :: fs
      exact List.mem_cons_self f fs
    · show sel t st ∈ f :: fs
      exact List.mem_of_elem_eq_true hc

theorem pickIdx_lt9 (sel : BTree Node → GameState → Nat) (t : BTree Node)
    (st : GameState) : pickIdx sel t st < 9 := by
  rcases hf : (List.range 9).filter
      (fun i => st.legal_moves.occupied &&& (1 <<< i) == 0)
      with _ | ⟨f, fs⟩
  · simp only [pickIdx, hf]
    omega
  · have hne : (List.range 9).filter
        (fun i => st.legal_moves.occupied &&& (1 <<< i) == 0) ≠ [] := by
      rw [hf]
      exact List.cons_ne_nil f fs
    have hmem := pickIdx_spec sel t st hne
    have := (List.mem_filter.mp hmem).1
    exact List.mem_range.mp this

theorem pickIdx_free (sel : BTree Node → GameState → Nat) (t : BTree Node)
    (st : GameState) (hb : HighBits st) (hs : st.score = .Undecided) :
    st.legal_moves.occupied &&& (1 <<< pickIdx sel t st) = 0 := by
  obtain ⟨i, hi, hfree⟩ := score_undecided_free st hb hs
  have hmem : i ∈ (List.range 9).filter
      (fun i => st.legal_moves.occupied &&& (1 <<< i) == 0) := by
    apply List.mem_filter.mpr
    refine ⟨List.mem_range.mpr hi, ?_⟩
    rw [hfree]
    rfl
  have hp := pickIdx_spec sel t st (List.ne_nil_of_mem hmem)
  have := (List.mem_filter.mp hp).2
  simpa using this

/-- If every board cell of `st` is occupied then no successor of `st`
can be scored `Undecided` (the board stays full and the draw test
fires). -/
theorem full_perform_not_undecided (st : GameState) (m : Nat)
    (hb : HighBits (st.perform (.put m)))
    (hfull : ∀ i, i < 9 → st.legal_moves.occupied.testBit i = true) :
    (st.perform (.put m)).score ≠ .Undecided := by
  intro hs
  obtain ⟨i, hi, hfree⟩ := score_undecided_free _ hb hs
  have hbit : (st.perform (.put m)).legal_moves.occupied.testBit i
      = false := (land_shiftLeft_eq_zero_iff _ i).mp hfree
  rw [occupied_perform] at hbit
  simp only [Nat.testBit_lor, Bool.or_eq_false_iff] at hbit
  rw [hfull i hi] at hbit
  exact Bool.noConfusion hbit.1

/-- When the free-cell filter is empty every board cell is occupied. -/
theorem filter_nil_full (st : GameState)
    (hf : (List.range 9).filter
      (fun i => st.legal_moves.occupied &&& (1 <<< i) == 0) = []) :
    ∀ i, i < 9 → st.legal_moves.occupied.testBit i = true := by
  intro i hi
  rcases he : st.legal_moves.occupied.testBit i with _ | _
  · exfalso
    have hfree : st.legal_moves.occupied &&& (1 <<< i) = 0 :=
      (land_shiftLeft_eq_zero_iff _ i).mpr he
    have hmem : i ∈ (List.range 9).filter
        (fun i => st.legal_moves.occupied &&& (1 <<< i) == 0) := by
      apply List.mem_filter.mpr
      refine ⟨List.mem_range.mpr hi, ?_⟩
      rw [hfree]
      rfl
    rw [hf] at hmem
    cases hmem
  · rfl

theorem getD_set_true {l : List Bool} {b i : Nat}
    (h : (l.set b true).getD i false = true) :
    i = b ∨ l.getD i false = true := by
  by_cases hib : i = b
  · exact Or.inl hib
  · right
    rw [List.getD_eq_getElem?_getD] at h ⊢
    rw [List.getElem?_set_ne (fun he => hib he.symm)] at h
    exact h

/-- The three possible outcomes of a successful `soChild` call: child
already explored (tree unchanged), child created fresh, or transposition
onto an existing visited node. -/
theorem soChild_shape {t : BTree Node} {node : Node} {stK nextK b : Nat}
    {t1 : BTree Node} (h : soChild t node stK nextK b = some t1) :
    (t1 = t ∧ (BTree.find t nextK).isSome = true) ∨
    (BTree.find t nextK = none ∧
      t1 = (t.insert nextK Node.init).insert stK
        { node with moves := node.moves.set b true }) ∨
    (∃ a, BTree.find t nextK = some a ∧ a.visited ≠ 0 ∧
      t1 = t.insert stK { node with moves := node.moves.set b true }) := by
  rcases hflag : node.moves.getD b false with _ | _
  · rcases hfind : BTree.find t nextK with _ | a
    · simp only [soChild, hflag, hfind, Option.some.injEq] at h
      exact Or.inr (Or.inl ⟨rfl, h.symm⟩)
    · rcases hz : a.visited == 0 with _ | _
      · simp only [soChild, hflag, hfind, hz, Option.some.injEq] at h
        refine Or.inr (Or.inr ⟨a, rfl, ?_, h.symm⟩)
        intro he
        rw [he] at hz
        exact Bool.noConfusion hz
      · simp only [soChild, hflag, hfind, hz] at h
        exact Option.noConfusion h
  · rcases hfind : BTree.find t nextK with _ | a
    · simp only [soChild, hflag, hfind] at h
      exact Option.noConfusion h
    · simp only [soChild, hflag, hfind, Option.some.injEq] at h
      exact Or.inl ⟨h.symm, rfl⟩

theorem soChild_next_isSome {t : BTree Node} {node : Node}
    {stK nextK b : Nat} {t1 : BTree Node} (hsn : stK ≠ nextK)
    (h : soChild t node stK nextK b = some t1) :
    (BTree.find t1 nextK).isSome = true := by
  rcases soChild_shape h with ⟨he, hs⟩ | ⟨hn, he⟩ | ⟨a, ha, _, he⟩
  · rw [he]
    exact hs
  · rw [he, BTree.find_insert_ne _ _ _ _ hsn.symm, BTree.find_insert_self]
    rfl
  · rw [he, BTree.find_insert_ne _ _ _ _ hsn.symm, ha]
    rfl

theorem soChild_preserve {t : BTree Node} {node : Node}
    {stK nextK b : Nat} {t1 : BTree Node}
    (hnode : BTree.find t stK = some node)
    (h : soChild t node stK nextK b = some t1) (kk : Nat)
    (hkn : kk ≠ nextK) :
    ∀ n, BTree.find t kk = some n →
      ∃ n', BTree.find t1 kk = some n' ∧ n'.visited = n.visited := by
  intro n hn
  rcases soChild_shape h with ⟨he, _⟩ | ⟨_, he⟩ | ⟨a, _, _, he⟩
  · exact ⟨n, he ▸ hn, rfl⟩
  · by_cases hsk : kk = stK
    · subst hsk
      rw [hnode] at hn
      cases hn
      rw [he, BTree.find_insert_self]
      exact ⟨_, rfl, rfl⟩
    · rw [he, BTree.find_insert_ne _ _ _ _ hsk,
        BTree.find_insert_ne _ _ _ _ hkn]
      exact ⟨n, hn, rfl⟩
  · by_cases hsk : kk = stK
    · subst hsk
      rw [hnode] at hn
      cases hn
      rw [he, BTree.find_insert_self]
      exact ⟨_, rfl, rfl⟩
    · rw [he, BTree.find_insert_ne _ _ _ _ hsk]
      exact ⟨n, hn, rfl⟩

theorem soChild_zero_other {t : BTree Node} {node : Node}
    {stK nextK b : Nat} {t1 : BTree Node}
    (hnode : BTree.find t stK = some node)
    (h : soChild t node stK nextK b = some t1) :
    ∀ k n', k ≠ nextK → BTree.find t1 k = some n' → n'.visited = 0 →
      ∃ n, BTree.find t k = some n ∧ n.visited = 0 := by
  intro k n' hkn hfind hz
  rcases soChild_shape h with ⟨he, _⟩ | ⟨_, he⟩ | ⟨a, _, _, he⟩
  · exact ⟨n', he ▸ hfind, hz⟩
  · by_cases hsk : k = stK
    · subst hsk
      rw [he, BTree.find_insert_self] at hfind
      cases hfind
      exact ⟨node, hnode, hz⟩
    · rw [he, BTree.find_insert_ne _ _ _ _ hsk,
        BTree.find_insert_ne _ _ _ _ hkn] at hfind
      exact ⟨n', hfind, hz⟩
  · by_cases hsk : k = stK
    · subst hsk
      rw [he, BTree.find_insert_self] at hfind
      cases hfind
      exact ⟨node, hnode, hz⟩
    · rw [he, BTree.find_insert_ne _ _ _ _ hsk] at hfind
      exact ⟨n', hfind, hz⟩

theorem soBackprop_find_other (rt : Option Nat × BTree Node)
    (nextK k : Nat) (hk : k ≠ nextK) :
    BTree.find (soBackprop rt nextK).2 k = BTree.find rt.2 k := by
  obtain ⟨ro, t2⟩ := rt
  rcases ro with _ | r
  · rfl
  · rcases hfind : BTree.find t2 nextK with _ | cnode
    · simp only [soBackprop, hfind]
    · simp only [soBackprop, hfind]
      exact BTree.find_insert_ne _ _ _ _ hk

theorem soBackprop_some {t2 : BTree Node} {r : Nat} {nextK : Nat}
    {cnode : Node} (hfind : BTree.find t2 nextK = some cnode) :
    soBackprop (some r, t2) nextK =
      (some r, t2.insert nextK
        { cnode with visited := cnode.visited + 1, wins := cnode.wins + r })
      := by
  simp only [soBackprop, hfind]

/-- `search_one` run from any position at or below `root` never touches
the `visited` counter of `root`'s entry: the only `visited` bumps happen
at child positions, which have strictly fewer free cells than `root`. -/
theorem searchOne_preserve (sel : BTree Node → GameState → Nat)
    (root : GameState) (hroot : HighBits root) :
    ∀ (fuel : Nat) (t : BTree Node) (u : GameState) (curP1 : Bool)
      (r : Option Nat) (t' : BTree Node),
      searchOne sel fuel t u curP1 = (r, t') →
      HighBits u → (u = root ∨ freeCount u < freeCount root) →
      ∀ n, BTree.find t (encode root) = some n →
        ∃ n', BTree.find t' (encode root) = some n' ∧
          n'.visited = n.visited := by
  intro fuel
  induction fuel with
  | zero =>
    intro t u curP1 r t' h _ _ n hn
    rw [searchOne_zero] at h
    simp only [Prod.mk.injEq] at h
    exact ⟨n, h.2 ▸ hn, rfl⟩
  | succ f ih =>
    intro t u curP1 r t' h hu hdisj n hn
    rw [searchOne_succ] at h
    rcases hfind : BTree.find t (encode u) with _ | node
    · simp only [hfind, Prod.mk.injEq] at h
      exact ⟨n, h.2 ▸ hn, rfl⟩
    · simp only [hfind] at h
      rcases hch : soChild t node (encode u)
          (encode (u.perform (.put (1 <<< pickIdx sel t u))))
          (pickIdx sel t u) with _ | t1
      · simp only [hch, Prod.mk.injEq] at h
        exact ⟨n, h.2 ▸ hn, rfl⟩
      · simp only [hch] at h
        have hidx9 : pickIdx sel t u < 9 := pickIdx_lt9 sel t u
        have hbnext : HighBits (u.perform (.put (1 <<< pickIdx sel t u))) :=
          highBits_perform u _ hidx9 hu
        have hnr : encode (u.perform (.put (1 <<< pickIdx sel t u)))
            ≠ encode root := by
          intro he
          have heq : u.perform (.put (1 <<< pickIdx sel t u)) = root :=
            encode_inj (bounded_of_highBits hbnext)
              (bounded_of_highBits hroot) he
          rcases hdisj with hd | hd
          · subst hd
            have hflip := perform_flips u (1 <<< pickIdx sel t u)
            rw [heq] at hflip
            rcases hb : u.is_player1 with _ | _ <;> rw [hb] at hflip <;>
              exact Bool.noConfusion hflip
          · have hle := freeCount_perform_le u (1 <<< pickIdx sel t u)
            rw [heq] at hle
            omega
        obtain ⟨n1, hn1, hv1⟩ :=
          soChild_preserve hfind hch (encode root) hnr.symm n hn
        rcases hres : soResult (fun t'' s' => searchOne sel f t'' s' curP1)
            t1 (u.perform (.put (1 <<< pickIdx sel t u))) curP1
            with ⟨ro, t₂⟩
        have hmid : ∃ n2, BTree.find t₂ (encode root) = some n2 ∧
            n2.visited = n.visited := by
          unfold soResult at hres
          rcases hsc : (u.perform (.put (1 <<< pickIdx sel t u))).score
              with _ | _ | _ | _ <;> rw [hsc] at hres <;>
            rcases curP1 with _ | _ <;>
            simp only [Prod.mk.injEq] at hres
          case Undecided.false =>
            have hdisj2 : u.perform (.put (1 <<< pickIdx sel t u)) = root ∨
                freeCount (u.perform (.put (1 <<< pickIdx sel t u)))
                  < freeCount root := by
              right
              rcases hf : (List.range 9).filter
                  (fun i => u.legal_moves.occupied &&& (1 <<< i) == 0)
                  with _ | ⟨ff, ffs⟩
              · exact absurd hsc
                  (full_perform_not_undecided u _ hbnext
                    (filter_nil_full u hf))
              · have hne : (List.range 9).filter
                    (fun i => u.legal_moves.occupied &&& (1 <<< i) == 0)
                    ≠ [] := by
                  rw [hf]
                  exact List.cons_ne_nil ff ffs
                have hmem := pickIdx_spec sel t u hne
                have hfree : u.legal_moves.occupied
                    &&& (1 <<< pickIdx sel t u) = 0 := by
                  have := (List.mem_filter.mp hmem).2
                  simpa using this
                have hlt := freeCount_perform_lt u _ hidx9 hfree
                rcases hdisj with hd | hd
                · have : freeCount u = freeCount root := by rw [hd]
                  omega
                · omega
            obtain ⟨n2, hn2, hv2⟩ :=
              ih t1 _ false ro t₂ hres hbnext hdisj2 n1 hn1
            exact ⟨n2, hn2, by omega⟩
          case Undecided.true =>
            have hdisj2 : u.perform (.put (1 <<< pickIdx sel t u)) = root ∨
                freeCount (u.perform (.put (1 <<< pickIdx sel t u)))
                  < freeCount root := by
              right
              rcases hf : (List.range 9).filter
                  (fun i => u.legal_moves.occupied &&& (1 <<< i) == 0)
                  with _ | ⟨ff, ffs⟩
              · exact absurd hsc
                  (full_perform_not_undecided u _ hbnext
                    (filter_nil_full u hf))
              · have hne : (List.range 9).filter
                    (fun i => u.legal_moves.occupied &&& (1 <<< i) == 0)
                    ≠ [] := by
                  rw [hf]
                  exact List.cons_ne_nil ff ffs
                have hmem := pickIdx_spec sel t u hne
                have hfree : u.legal_moves.occupied
                    &&& (1 <<< pickIdx sel t u) = 0 := by
                  have := (List.mem_filter.mp hmem).2
                  simpa using this
                have hlt := freeCount_perform_lt u _ hidx9 hfree
                rcases hdisj with hd | hd
                · have : freeCount u = freeCount root := by rw [hd]
                  omega
                · omega
            obtain ⟨n2, hn2, hv2⟩ :=
              ih t1 _ true ro t₂ hres hbnext hdisj2 n1 hn1
            exact ⟨n2, hn2, by omega⟩
          all_goals
            exact ⟨n1, hres.2 ▸ hn1, hv1⟩
        obtain ⟨n2, hn2, hv2⟩ := hmid
        rw [hres] at h
        have hfo := soBackprop_find_other (ro, t₂)
          (encode (u.perform (.put (1 <<< pickIdx sel t u))))
          (encode root) hnr.symm
        simp only [h] at hfo
        rw [hn2] at hfo
        exact ⟨n2, hfo, hv2⟩

/-- A completed simulation loop of `N` iterations increments the root
node's `visited` counter by exactly `N`: `search_one` itself never
touches the root's counter, and the loop body adds `1` per iteration. -/
theorem playIters_count (sel : BTree Node → GameState → Nat) (fuel : Nat)
    (st : GameState) (hst : HighBits st) :
    ∀ (N : Nat) (t t' : BTree Node),
      playIters sel fuel N t st = some t' →
      ∀ n, BTree.find t (encode st) = some n →
        ∃ n', BTree.find t' (encode st) = some n' ∧
          n'.visited = n.visited + N := by
  intro N
  induction N with
  | zero =>
    intro t t' h n hn
    rw [playIters_zero] at h
    cases h
    exact ⟨n, hn, rfl⟩
  | succ N ih =>
    intro t t' h n hn
    rw [playIters_succ] at h
    rcases hso : searchOne sel fuel t st st.is_player1 with ⟨ro, t₁⟩
    rcases ro with _ | r
    · simp only [hso] at h
      cases h
    · simp only [hso] at h
      obtain ⟨n1, hn1, hv1⟩ := searchOne_preserve sel st hst fuel t st
        st.is_player1 (some r) t₁ hso hst (Or.inl rfl) n hn
      simp only [hn1] at h
      obtain ⟨n', hn', hv'⟩ := ih _ t' h
        { n1 with visited := n1.visited + 1, wins := n1.wins + r }
        (BTree.find_insert_self _ _ _)
      refine ⟨n', hn', ?_⟩
      simp only at hv'
      omega

theorem finv_insert_same_moves {t : BTree Node} (hfin : Finv t) {k : Nat}
    {n0 v : Node} (hn0 : BTree.find t k = some n0)
    (hmoves : v.moves = n0.moves) : Finv (t.insert k v) := by
  intro k' n' hf i hi hflag
  by_cases hk : k' = k
  · subst hk
    rw [BTree.find_insert_self] at hf
    cases hf
    rw [hmoves] at hflag
    exact find_insert_isSome _ _ _ _ (hfin k' n0 hn0 i hi hflag)
  · rw [BTree.find_insert_ne _ _ _ _ hk] at hf
    exact find_insert_isSome _ _ _ _ (hfin k' n' hf i hi hflag)

theorem finv_insert_init {t : BTree Node} (hfin : Finv t) (k : Nat) :
    Finv (t.insert k Node.init) := by
  intro k' n' hf i hi hflag
  by_cases hk : k' = k
  · subst hk
    rw [BTree.find_insert_self] at hf
    cases hf
    rw [show Node.init.moves = List.replicate 9 false from rfl,
      replicate_getD_false] at hflag
    exact Bool.noConfusion hflag
  · rw [BTree.find_insert_ne _ _ _ _ hk] at hf
    exact find_insert_isSome _ _ _ _ (hfin k' n' hf i hi hflag)

theorem soChild_finv {t : BTree Node} {node : Node} {stK nextK b : Nat}
    {t1 : BTree Node} (hfin : Finv t)
    (hnode : BTree.find t stK = some node) (hsn : stK ≠ nextK)
    (hck : childKey stK b = nextK)
    (h : soChild t node stK nextK b = some t1) : Finv t1 := by
  rcases soChild_shape h with ⟨he, _⟩ | ⟨hno, he⟩ | ⟨a, ha, _, he⟩
  · rw [he]
    exact hfin
  · subst he
    intro k' n' hf i hi hflag
    by_cases hks : k' = stK
    · subst hks
      rw [BTree.find_insert_self] at hf
      cases hf
      rcases getD_set_true hflag with hib | hold
      · subst hib
        rw [hck]
        apply find_insert_isSome
        rw [BTree.find_insert_self]
        rfl
      · apply find_insert_isSome
        apply find_insert_isSome
        exact hfin k' node hnode i hi hold
    · rw [BTree.find_insert_ne _ _ _ _ hks] at hf
      by_cases hkn : k' = nextK
      · subst hkn
        rw [BTree.find_insert_self] at hf
        cases hf
        rw [show Node.init.moves = List.replicate 9 false from rfl,
          replicate_getD_false] at hflag
        exact Bool.noConfusion hflag
      · rw [BTree.find_insert_ne _ _ _ _ hkn] at hf
        apply find_insert_isSome
        apply find_insert_isSome
        exact hfin k' n' hf i hi hflag
  · subst he
    intro k' n' hf i hi hflag
    by_cases hks : k' = stK
    · subst hks
      rw [BTree.find_insert_self] at hf
      cases hf
      rcases getD_set_true hflag with hib | hold
      · subst hib
        rw [hck]
        apply find_insert_isSome
        rw [ha]
        rfl
      · apply find_insert_isSome
        exact hfin k' node hnode i hi hold
    · rw [BTree.find_insert_ne _ _ _ _ hks] at hf
      apply find_insert_isSome
      exact hfin k' n' hf i hi hflag

/-- `search_one` cannot panic: on an undecided position whose entry
exists, with enough fuel, with every zero-visited entry either the root
or an ancestor-depth key (which rules out failing the transposition
`assert!(a.visited != 0)`), and with all move flags backed by entries
(which rules out the `self.tree[&next_state]` panic), the call returns a
result; it creates no new zero-visited entries and preserves the
flag-backing invariant. -/
theorem searchOne_ok (sel : BTree Node → GameState → Nat)
    (root : GameState) (hroot : HighBits root) :
    ∀ (fuel : Nat) (t : BTree Node) (u : GameState) (curP1 : Bool),
      HighBits u → u.score = .Undecided →
      freeCount u < fuel → freeCount u ≤ freeCount root →
      (BTree.find t (encode u)).isSome = true →
      (∀ k n, BTree.find t k = some n → n.visited = 0 →
        k = encode root ∨ freeCount u ≤ keyFree k) →
      Finv t →
      ∃ r t', searchOne sel fuel t u curP1 = (some r, t') ∧
        ZeroSub t' t ∧ Finv t' := by
  intro fuel
  induction fuel with
  | zero =>
    intro t u curP1 _ _ hfuel _ _ _ _
    exact absurd hfuel (Nat.not_lt_zero _)
  | succ f ih =>
    intro t u curP1 hu hsc hfuel hle hsome hzin hfin
    rcases hfind : BTree.find t (encode u) with _ | node
    · rw [hfind] at hsome
      exact Bool.noConfusion hsome
    have hidx9 : pickIdx sel t u < 9 := pickIdx_lt9 sel t u
    have hfree : u.legal_moves.occupied &&& (1 <<< pickIdx sel t u) = 0 :=
      pickIdx_free sel t u hu hsc
    have hbnext : HighBits (u.perform (.put (1 <<< pickIdx sel t u))) :=
      highBits_perform u _ hidx9 hu
    have hflt : freeCount (u.perform (.put (1 <<< pickIdx sel t u)))
        < freeCount u := freeCount_perform_lt u _ hidx9 hfree
    have hkeq_u : keyFree (encode u) = freeCount u :=
      keyFree_encode u (bounded_of_highBits hu)
    have hkeq_n : keyFree (encode (u.perform
        (.put (1 <<< pickIdx sel t u))))
        = freeCount (u.perform (.put (1 <<< pickIdx sel t u))) :=
      keyFree_encode _ (bounded_of_highBits hbnext)
    have hkeq_r : keyFree (encode root) = freeCount root :=
      keyFree_encode root (bounded_of_highBits hroot)
    have hsn : encode u
        ≠ encode (u.perform (.put (1 <<< pickIdx sel t u))) := by
      intro he
      rw [he] at hkeq_u
      omega
    have hnr : encode (u.perform (.put (1 <<< pickIdx sel t u)))
        ≠ encode root := by
      intro he
      rw [he] at hkeq_n
      omega
    have hck : childKey (encode u) (pickIdx sel t u)
        = encode (u.perform (.put (1 <<< pickIdx sel t u))) :=
      childKey_encode u (bounded_of_highBits hu) _
    rcases hch : soChild t node (encode u)
        (encode (u.perform (.put (1 <<< pickIdx sel t u))))
        (pickIdx sel t u) with _ | t1
    · exfalso
      rcases hflag : node.moves.getD (pickIdx sel t u) false with _ | _
      · rcases hcf : BTree.find t
            (encode (u.perform (.put (1 <<< pickIdx sel t u))))
            with _ | a
        · simp only [soChild, hflag, hcf] at hch
          exact Option.noConfusion hch
        · rcases hz : a.visited == 0 with _ | _
          · simp only [soChild, hflag, hcf, hz] at hch
            exact Option.noConfusion hch
          · have hz0 : a.visited = 0 := by simpa using hz
            rcases hzin _ a hcf hz0 with he | hge
            · exact hnr he
            · omega
      · have hpres := hfin (encode u) node hfind (pickIdx sel t u)
          hidx9 hflag
        rw [hck] at hpres
        rcases hcf : BTree.find t
            (encode (u.perform (.put (1 <<< pickIdx sel t u))))
            with _ | a
        · rw [hcf] at hpres
          exact Bool.noConfusion hpres
        · simp only [soChild, hflag, hcf] at hch
          exact Option.noConfusion hch
    · have hnext1 : (BTree.find t1
          (encode (u.perform (.put (1 <<< pickIdx sel t u))))).isSome
          = true := soChild_next_isSome hsn hch
      have hfin1 : Finv t1 := soChild_finv hfin hfind hsn hck hch
      have hzin1 : ∀ k n, BTree.find t1 k = some n → n.visited = 0 →
          k = encode root ∨
            freeCount (u.perform (.put (1 <<< pickIdx sel t u)))
              ≤ keyFree k := by
        intro k nn hf hz
        rcases soChild_shape hch with ⟨he, _⟩ | ⟨hno, he⟩ | ⟨a, ha, hav, he⟩
        · rw [he] at hf
          rcases hzin k nn hf hz with hzz | hzz
          · exact Or.inl hzz
          · right
            omega
        · subst he
          by_cases hks : k = encode u
          · subst hks
            rw [BTree.find_insert_self] at hf
            cases hf
            rcases hzin _ node hfind hz with hzz | hzz
            · exact Or.inl hzz
            · right
              omega
          · by_cases hkn : k = encode (u.perform
                (.put (1 <<< pickIdx sel t u)))
            · subst hkn
              right
              rw [hkeq_n]
            · rw [BTree.find_insert_ne _ _ _ _ hks,
                BTree.find_insert_ne _ _ _ _ hkn] at hf
              rcases hzin k nn hf hz with hzz | hzz
              · exact Or.inl hzz
              · right
                omega
        · subst he
          by_cases hks : k = encode u
          · subst hks
            rw [BTree.find_insert_self] at hf
            cases hf
            rcases hzin _ node hfind hz with hzz | hzz
            · exact Or.inl hzz
            · right
              omega
          · rw [BTree.find_insert_ne _ _ _ _ hks] at hf
            rcases hzin k nn hf hz with hzz | hzz
            · exact Or.inl hzz
            · right
              omega
      rcases hres : soResult (fun t'' s' => searchOne sel f t'' s' curP1)
          t1 (u.perform (.put (1 <<< pickIdx sel t u))) curP1
          with ⟨ro, t₂⟩
      have hres0 := hres
      have hmid : ∃ r2, ro = some r2 ∧
          ZeroSub t₂ t1 ∧ Finv t₂ ∧
          (BTree.find t₂
            (encode (u.perform (.put (1 <<< pickIdx sel t u))))).isSome
            = true := by
        unfold soResult at hres
        rcases hsc2 : (u.perform (.put (1 <<< pickIdx sel t u))).score
            with _ | _ | _ | _ <;> rw [hsc2] at hres <;>
          rcases curP1 with _ | _ <;>
          simp only [Prod.mk.injEq] at hres
        case Undecided.false =>
          obtain ⟨r2, t2x, heq, hzs, hfin2⟩ := ih t1 _ false hbnext hsc2
            (by omega) (by omega) hnext1 hzin1 hfin1
          rw [heq] at hres
          simp only [Prod.mk.injEq] at hres
          obtain ⟨m1, _, _⟩ := searchOne_mono_wf sel f t1 _ false
            (some r2) t2x heq
          rcases hq : BTree.find t1
              (encode (u.perform (.put (1 <<< pickIdx sel t u))))
              with _ | cn
          · rw [hq] at hnext1
            exact Bool.noConfusion hnext1
          · obtain ⟨cn', hcn', _⟩ := m1 _ cn hq
            rw [← hres.2]
            refine ⟨r2, hres.1.symm, hzs, hfin2, ?_⟩
            rw [hcn']
            rfl
        case Undecided.true =>
          obtain ⟨r2, t2x, heq, hzs, hfin2⟩ := ih t1 _ true hbnext hsc2
            (by omega) (by omega) hnext1 hzin1 hfin1
          rw [heq] at hres
          simp only [Prod.mk.injEq] at hres
          obtain ⟨m1, _, _⟩ := searchOne_mono_wf sel f t1 _ true
            (some r2) t2x heq
          rcases hq : BTree.find t1
              (encode (u.perform (.put (1 <<< pickIdx sel t u))))
              with _ | cn
          · rw [hq] at hnext1
            exact Bool.noConfusion hnext1
          · obtain ⟨cn', hcn', _⟩ := m1 _ cn hq
            rw [← hres.2]
            refine ⟨r2, hres.1.symm, hzs, hfin2, ?_⟩
            rw [hcn']
            rfl
        all_goals
          rw [← hres.2]
          exact ⟨_, hres.1.symm, fun k n' hf hz => ⟨n', hf, hz⟩,
            hfin1, hnext1⟩
      obtain ⟨r2, hro, hzs2, hfin2, hsome2⟩ := hmid
      subst hro
      rcases hcf2 : BTree.find t₂
          (encode (u.perform (.put (1 <<< pickIdx sel t u))))
          with _ | cnode
      · rw [hcf2] at hsome2
        exact Bool.noConfusion hsome2
      refine ⟨r2, t₂.insert
        (encode (u.perform (.put (1 <<< pickIdx sel t u))))
        { cnode with visited := cnode.visited + 1, wins := cnode.wins + r2 },
        ?_, ?_, ?_⟩
      · rw [searchOne_succ]
        simp only [hfind, hch, hres0, soBackprop_some hcf2]
      · intro k n' hf hz
        by_cases hkn : k = encode (u.perform
            (.put (1 <<< pickIdx sel t u)))
        · subst hkn
          rw [BTree.find_insert_self] at hf
          cases hf
          exact absurd hz (Nat.succ_ne_zero _)
        · rw [BTree.find_insert_ne _ _ _ _ hkn] at hf
          obtain ⟨nz, hnz, hz2⟩ := hzs2 k n' hf hz
          exact soChild_zero_other hfind hch k nz hkn hnz hz2
      · exact finv_insert_same_moves hfin2 hcf2 rfl

/-- The simulation loop completes any number of iterations without
panicking when started on an undecided root position whose entry exists,
with enough fuel, no stray zero-visited entries and all move flags
backed. -/
theorem playIters_ok (sel : BTree Node → GameState → Nat) (fuel : Nat)
    (st : GameState) (hst : HighBits st)
    (hsc : st.score = .Undecided) (hfuel : freeCount st < fuel) :
    ∀ (N : Nat) (t : BTree Node),
      (BTree.find t (encode st)).isSome = true →
      (∀ k n, BTree.find t k = some n → n.visited = 0 →
        k = encode st ∨ freeCount st ≤ keyFree k) →
      Finv t →
      ∃ t', playIters sel fuel N t st = some t' := by
  intro N
  induction N with
  | zero =>
    intro t _ _ _
    exact ⟨t, rfl⟩
  | succ N ih =>
    intro t hsome hzin hfin
    obtain ⟨r, t₁, hso, hzs, hfin1⟩ := searchOne_ok sel st hst fuel t st
      st.is_player1 hst hsc hfuel (le_refl _) hsome hzin hfin
    obtain ⟨m1, _, _⟩ := searchOne_mono_wf sel fuel t st st.is_player1
      (some r) t₁ hso
    rcases hq : BTree.find t (encode st) with _ | n0
    · rw [hq] at hsome
      exact Bool.noConfusion hsome
    obtain ⟨n1, hn1, _⟩ := m1 _ n0 hq
    obtain ⟨t', ht'⟩ := ih
      (t₁.insert (encode st)
        { n1 with visited := n1.visited + 1, wins := n1.wins + r })
      (by rw [BTree.find_insert_self]; rfl)
      (by
        intro k nn hf hz
        by_cases hk : k = encode st
        · exact Or.inl hk
        · rw [BTree.find_insert_ne _ _ _ _ hk] at hf
          obtain ⟨nz, hnz, hz2⟩ := hzs k nn hf hz
          exact hzin k nz hnz hz2)
      (finv_insert_same_moves hfin1 hn1 rfl)
    refine ⟨t', ?_⟩
    rw [playIters_succ]
    simp only [hso, hn1]
    exact ht'

/-- C9: the iteration budget of `StrategyMCTS::play`. With the root's
`visited` count at the 5477 cap the simulation loop is skipped entirely
and the tree is returned untouched; otherwise a completed call runs the
loop exactly 30000 times when the tree was empty at entry and exactly
100 times on every later call — whether the current position already has
a tree entry below the cap (conjunct three) or none yet (conjunct four:
the entry is created unvisited, so the cap check passes and the loop
still runs 100 times) — "exactly `N` iterations" being observable as the
root entry's `visited` counter growing by precisely `N` (conjunct five),
since each loop iteration adds `1` to it and `search_one` never touches
it. -/
theorem claim_C9_iteration_budget (sel : BTree Node → GameState → Nat)
    (fuel : Nat) (t : BTree Node) (st : GameState) :
    (∀ n, BTree.find t (encode st) = some n → 5477 ≤ n.visited →
      mctsPlay sel fuel t st = some (1 <<< bestRateIdx t st n, t)) ∧
    (t.isEmpty = true → HighBits st →
      ∀ t', playIters sel fuel 30000 (t.insert (encode st) Node.init) st
          = some t' →
        ∃ n', mctsPlay sel fuel t st
            = some (1 <<< bestRateIdx t' st n', t') ∧
          BTree.find t' (encode st) = some n' ∧ n'.visited = 30000) ∧
    (t.isEmpty = false → HighBits st →
      ∀ n, BTree.find t (encode st) = some n → n.visited < 5477 →
        ∀ t', playIters sel fuel 100 t st = some t' →
          ∃ n', mctsPlay sel fuel t st
              = some (1 <<< bestRateIdx t' st n', t') ∧
            BTree.find t' (encode st) = some n' ∧
              n'.visited = n.visited + 100) ∧
    (t.isEmpty = false → HighBits st →
      BTree.find t (encode st) = none →
      ∀ t', playIters sel fuel 100 (t.insert (encode st) Node.init) st
          = some t' →
        ∃ n', mctsPlay sel fuel t st
            = some (1 <<< bestRateIdx t' st n', t') ∧
          BTree.find t' (encode st) = some n' ∧ n'.visited = 100) ∧
    (HighBits st → ∀ (N : Nat) (t₀ t' : BTree Node),
      playIters sel fuel N t₀ st = some t' →
      ∀ n, BTree.find t₀ (encode st) = some n →
        ∃ n', BTree.find t' (encode st) = some n' ∧
          n'.visited = n.visited + N) := by
  refine ⟨?_, ?_, ?_, ?_, ?_⟩
  · intro n hfind hcap
    simp only [mctsPlay, hfind, mctsPlayGo, blt_false_of_ge hcap]
  · intro hemp hst t' hrun
    cases t with
    | node l k v r => exact Bool.noConfusion hemp
    | leaf =>
      obtain ⟨n', hn', hv'⟩ := playIters_count sel fuel st hst 30000 _ t'
        hrun Node.init (BTree.find_insert_self _ _ _)
      refine ⟨n', ?_, hn', ?_⟩
      · simp only [mctsPlay, BTree.find_leaf, BTree.isEmpty, mctsPlayGo,
          show Nat.blt Node.init.visited 5477 = true from rfl, hrun, hn']
      · have h0 : Node.init.visited = 0 := rfl
        omega
  · intro hemp hst n hfind hlt t' hrun
    obtain ⟨n', hn', hv'⟩ := playIters_count sel fuel st hst 100 t t'
      hrun n hfind
    refine ⟨n', ?_, hn', hv'⟩
    simp only [mctsPlay, hemp, hfind, mctsPlayGo, blt_true_of_lt hlt,
      hrun, hn']
  · intro hemp hst hmiss t' hrun
    obtain ⟨n', hn', hv'⟩ := playIters_count sel fuel st hst 100 _ t'
      hrun Node.init (BTree.find_insert_self _ _ _)
    refine ⟨n', ?_, hn', ?_⟩
    · simp only [mctsPlay, hemp, hmiss, mctsPlayGo,
        show Nat.blt Node.init.visited 5477 = true from rfl, hrun, hn']
    · have h0 : Node.init.visited = 0 := rfl
      omega
  · intro hst N t₀ t' hrun n hfind
    exact playIters_count sel fuel st hst N t₀ t' hrun n hfind

theorem tInit_zin : ∀ k n, BTree.find tInit k = some n → n.visited = 0 →
    k = encode GameState.default ∨
      freeCount GameState.default ≤ keyFree k := by
  intro k n h _
  exact Or.inl (find_single h).1

theorem tInit_finv : Finv tInit := by
  intro k n h i hi hflag
  obtain ⟨hk, hn⟩ := find_single h
  subst hn
  rw [show Node.init.moves = List.replicate 9 false from rfl,
    replicate_getD_false] at hflag
  exact Bool.noConfusion hflag

theorem tOtherInit_zin : ∀ k n,
    BTree.find (tOther.insert (encode GameState.default) Node.init) k
        = some n → n.visited = 0 →
    k = encode GameState.default ∨
      freeCount GameState.default ≤ keyFree k := by
  intro k n h _
  by_cases hk : k = encode GameState.default
  · exact Or.inl hk
  · rw [BTree.find_insert_ne _ _ _ _ hk] at h
    obtain ⟨hk2, _⟩ := find_single h
    subst hk2
    right
    decide

theorem tOtherInit_finv :
    Finv (tOther.insert (encode GameState.default) Node.init) := by
  intro k n h i hi hflag
  by_cases hk : k = encode GameState.default
  · subst hk
    rw [BTree.find_insert_self] at h
    cases h
    rw [show Node.init.moves = List.replicate 9 false from rfl,
      replicate_getD_false] at hflag
    exact Bool.noConfusion hflag
  · rw [BTree.find_insert_ne _ _ _ _ hk] at h
    obtain ⟨_, hn⟩ := find_single h
    subst hn
    rw [show Node.init.moves = List.replicate 9 false from rfl,
      replicate_getD_false] at hflag
    exact Bool.noConfusion hflag

/-- C7 witness: one concrete `search_one` step and one concrete capped
`play` call, with the monotonicity and `wins <= visited` conclusions
instantiated. -/
theorem claim_C7_witness :
    searchOne selZero 1 tCap GameState.default true = (none, t1cap) ∧
      mctsPlay selZero 1 tCap GameState.default = some (1, tCap) ∧
      (visMono tCap t1cap ∧ (WFcounters tCap → WFcounters t1cap)) ∧
      (visMono tCap tCap ∧ (WFcounters tCap → WFcounters tCap)) :=
  ⟨rfl, rfl,
    (claim_C7_mcts_counters selZero 1 tCap GameState.default true).1 none
      t1cap rfl,
    (claim_C7_mcts_counters selZero 1 tCap GameState.default true).2 1
      tCap rfl⟩

/-- C9 witness: a capped call that returns its tree untouched, a
completed 30000-iteration first call from the empty tree, a completed
100-iteration later call on a tree already holding the position, a
completed 100-iteration later call on a nonempty tree not yet holding
the position, and a zero-iteration count instance, each with the root's
final `visited` counter pinned. -/
theorem claim_C9_witness :
    mctsPlay selZero 1 tCap GameState.default
        = some (1 <<< bestRateIdx tCap GameState.default capNode, tCap) ∧
    (∃ t' n',
      playIters selZero 10 30000 tInit GameState.default = some t' ∧
      mctsPlay selZero 10 .leaf GameState.default
          = some (1 <<< bestRateIdx t' GameState.default n', t') ∧
      BTree.find t' (encode GameState.default) = some n' ∧
      n'.visited = 30000) ∧
    (∃ t' n',
      playIters selZero 10 100 tInit GameState.default = some t' ∧
      mctsPlay selZero 10 tInit GameState.default
          = some (1 <<< bestRateIdx t' GameState.default n', t') ∧
      BTree.find t' (encode GameState.default) = some n' ∧
      n'.visited = Node.init.visited + 100) ∧
    (∃ t' n',
      playIters selZero 10 100
          (tOther.insert (encode GameState.default) Node.init)
          GameState.default = some t' ∧
      mctsPlay selZero 10 tOther GameState.default
          = some (1 <<< bestRateIdx t' GameState.default n', t') ∧
      BTree.find t' (encode GameState.default) = some n' ∧
      n'.visited = 100) ∧
    (∃ n', BTree.find tCap (encode GameState.default) = some n' ∧
      n'.visited = capNode.visited + 0) := by
  refine ⟨?_, ?_, ?_, ?_, ?_⟩
  · exact (claim_C9_iteration_budget selZero 1 tCap GameState.default).1
      capNode rfl (by decide)
  · obtain ⟨t', hrun⟩ := playIters_ok selZero 10 GameState.default
      highBits_default (by decide) (by decide) 30000 tInit rfl
      tInit_zin tInit_finv
    obtain ⟨n', h1, h2, h3⟩ := (claim_C9_iteration_budget selZero 10 .leaf
      GameState.default).2.1 rfl highBits_default t' hrun
    exact ⟨t', n', hrun, h1, h2, h3⟩
  · obtain ⟨t', hrun⟩ := playIters_ok selZero 10 GameState.default
      highBits_default (by decide) (by decide) 100 tInit rfl
      tInit_zin tInit_finv
    obtain ⟨n', h1, h2, h3⟩ :=
      (claim_C9_iteration_budget selZero 10 tInit
        GameState.default).2.2.1 rfl highBits_default Node.init rfl
        (by decide) t' hrun
    exact ⟨t', n', hrun, h1, h2, h3⟩
  · obtain ⟨t', hrun⟩ := playIters_ok selZero 10 GameState.default
      highBits_default (by decide) (by decide) 100
      (tOther.insert (encode GameState.default) Node.init)
      (by rw [BTree.find_insert_self]; rfl)
      tOtherInit_zin tOtherInit_finv
    obtain ⟨n', h1, h2, h3⟩ :=
      (claim_C9_iteration_budget selZero 10 tOther
        GameState.default).2.2.2.1 rfl highBits_default rfl t' hrun
    exact ⟨t', n', hrun, h1, h2, h3⟩
  · exact (claim_C9_iteration_budget selZero 1 tCap
      GameState.default).2.2.2.2 highBits_default 0 tCap tCap rfl capNode
      rfl

end TTT
